import Mathlib

/-!
Shallow embedding of the `mwgc` heap (a tiny tri-color, conservative,
incremental, non-compacting garbage collector) and proofs about it.

The embedding follows `src/heap.rs`, `src/color_map.rs` and
`src/free_list.rs`.  Machine pointers become `Nat` addresses, the pool RAM
becomes a word-granular function `Nat → Nat` (the collector only ever reads
word-aligned words), the in-place free list becomes the list of its nodes
`(start, size)` in link order, and panics (`assert!`) become `Option`
results.  Loops whose progress argument is implicit in the Rust code are
given an explicit fuel parameter that is always at least the number of
iterations the loop can perform, so the definitions stay structurally
recursive and evaluate by `rfl`/`decide` on concrete states.
-/

set_option maxRecDepth 16000
set_option maxHeartbeats 1000000

namespace Mwgc

/-- how many bytes are in each block of memory? (`src/lib.rs`) -/
def BLOCK_SIZE_BYTES : Nat := 16

/-- 2 bits per block, so 4 blocks per color-map byte (`src/color_map.rs`). -/
def BLOCKS_PER_COLORMAP_BYTE : Nat := 4

/-- `size_of::<FreeBlock>()`: two machine words.  The tests in the repository
run on a 64-bit host (a `Sample` with three references and a `usize` is 32
bytes there), so a word is 8 bytes and a free-block header is 16 bytes. -/
def WORD_SIZE : Nat := 8

/-- `FREE_BLOCK_SIZE = size_of::<FreeBlock>()` (`src/free_list.rs`). -/
def FREE_BLOCK_SIZE : Nat := 16

/-- `div_ceil` from `src/lib.rs`. -/
def div_ceil (numerator denominator : Nat) : Nat :=
  let floor := numerator / denominator
  let rem := numerator % denominator
  if rem = 0 then floor else floor + 1

/-- `floor_to` from `src/lib.rs`. -/
def floor_to (n chunk : Nat) : Nat := n / chunk * chunk

/-- `ceil_to` from `src/lib.rs`. -/
def ceil_to (n chunk : Nat) : Nat := div_ceil n chunk * chunk

/-- The 2-bit per-block color tag (`src/color_map.rs`). -/
inductive Color where
  | Continue
  | Blue
  | Green
  | Check
deriving DecidableEq, Repr

namespace Color

/-- The `repr(u8)` bits of each color. -/
def toBits : Color → Nat
  | .Continue => 0
  | .Blue => 1
  | .Green => 2
  | .Check => 3

/-- `Color::from_bits` (a transmute in the source; only ever applied to a
2-bit value). -/
def from_bits : Nat → Color
  | 0 => .Continue
  | 1 => .Blue
  | 2 => .Green
  | _ => .Check

/-- `Color::opposite`. -/
def opposite : Color → Color
  | .Blue => .Green
  | .Green => .Blue
  | x => x

end Color

/-- `BlockRange` (`src/color_map.rs`): units are block numbers from 0.
The `end` field of the source is spelled `end_` because `end` is a Lean
keyword. -/
structure BlockRange where
  start : Nat
  end_ : Nat
  color : Color
deriving DecidableEq, Repr

/-- The color map: 2 bits per block packed into bytes.  `bits` is the byte
slice at the tail of the backing memory. -/
structure ColorMap where
  bits : List Nat
deriving DecidableEq, Repr

namespace ColorMap

/-- `ColorMap::new`: the whole area is marked `0xff` ("free"/`Check`). -/
def new (size : Nat) : ColorMap := ⟨List.replicate size 0xff⟩

/-- `ColorMap::len`: number of block slots. -/
def len (cm : ColorMap) : Nat := cm.bits.length * BLOCKS_PER_COLORMAP_BYTE

/-- `ColorMap::get`: read the 2-bit slot of block `n`. -/
def get (cm : ColorMap) (n : Nat) : Color :=
  let shift := (n &&& 3) * 2
  let mask := 3 <<< shift
  Color.from_bits ((cm.bits.getD (n / 4) 0 &&& mask) >>> shift)

/-- `ColorMap::set`: write the 2-bit slot of block `n` (the `!` complement of
the `u8` mask is taken in 8 bits). -/
def set (cm : ColorMap) (n : Nat) (color : Color) : ColorMap :=
  let shift := (n &&& 3) * 2
  let mask := 0xff ^^^ (3 <<< shift)
  let replace := color.toBits <<< shift
  ⟨cm.bits.set (n / 4) ((cm.bits.getD (n / 4) 0 &&& mask) ||| replace)⟩

/-- The `while end < len && get end == Continue` walk of `get_range`,
with an explicit fuel that bounds the remaining steps (each step moves
`end` up by one and stays below `len`, so `cm.len` fuel always suffices). -/
def rangeEnd (cm : ColorMap) : Nat → Nat → Nat
  | 0, e => e
  | fuel + 1, e =>
    if e < cm.len ∧ cm.get e = Color.Continue then rangeEnd cm fuel (e + 1) else e

/-- `ColorMap::get_range`: the run that starts at block `n`. -/
def get_range (cm : ColorMap) (n : Nat) : BlockRange :=
  { start := n, end_ := cm.rangeEnd cm.len (n + 1), color := cm.get n }

/-- `ColorMap::set_range`: color at `start`, `Continue` on the rest. -/
def set_range (cm : ColorMap) (range : BlockRange) : ColorMap :=
  let cm := cm.set range.start range.color
  (List.range' (range.start + 1) (range.end_ - (range.start + 1))).foldl
    (fun m i => m.set i Color.Continue) cm

/-- `ColorMap::free_range`: `Check` across the whole range, so a free run can
terminate a previous allocation's `Continue` run. -/
def free_range (cm : ColorMap) (range : BlockRange) : ColorMap :=
  (List.range' range.start (range.end_ - range.start)).foldl
    (fun m i => m.set i Color.Check) cm

end ColorMap

/-- A `Memory` span handed across the allocator boundary (`src/memory.rs`):
its `[start, start+size)` address extent.  The byte contents live in the
heap's RAM model. -/
structure Memory where
  start : Nat
  size : Nat
deriving DecidableEq, Repr

/-- A free-list node (`FreeBlock` in `src/free_list.rs`): the in-place header
records the region's size; the `next` link is the list structure itself. -/
structure FreeBlock where
  start : Nat
  size : Nat
deriving DecidableEq, Repr

namespace FreeBlock

/-- `FreeBlock::end`. -/
def end_ (b : FreeBlock) : Nat := b.start + b.size

end FreeBlock

/-- `FreeBlock::check_merge_next` applied to a block `b` whose `next` chain is
`l`: if `b` and the next block touch, merge them. -/
def checkMergeNext (b : FreeBlock) : List FreeBlock → List FreeBlock
  | [] => [b]
  | next :: rest =>
    if b.end_ = next.start then ⟨b.start, b.size + next.size⟩ :: rest
    else b :: next :: rest

/-- `FreeList::allocate` = `iter_mut().find_map(|p| p.allocate(amount))`
(`src/free_list.rs`): first-fit scan; a node from which less than a header's
worth  would remain is handed out whole, otherwise the node is split and the
trailing part keeps a header. -/
def flAllocate (amount : Nat) : List FreeBlock → Option (Memory × List FreeBlock)
  | [] => none
  | block :: rest =>
    if amount > block.size then
      (flAllocate amount rest).map fun p => (p.1, block :: p.2)
    else if block.size - amount < FREE_BLOCK_SIZE then
      some (⟨block.start, block.size⟩, rest)
    else
      some (⟨block.start, amount⟩, ⟨block.start + amount, block.size - amount⟩ :: rest)

/-- `FreeListMutableIterator::retire` walking `try_insert` over every slot
(`src/free_list.rs`): at each node, try to insert before it, then to merge
into its end (both with a `check_merge_next`), else advance; an empty slot
appends. -/
def flRetire (m : Memory) : List FreeBlock → List FreeBlock
  | [] => [⟨m.start, m.size⟩]
  | block :: rest =>
    if block.start > m.start then
      checkMergeNext ⟨m.start, m.size⟩ (block :: rest)
    else if block.end_ = m.start then
      checkMergeNext ⟨block.start, block.size + m.size⟩ rest
    else
      block :: flRetire m rest

/-- Modelled from the spec: `FreeList::bytes` "sums the sizes of all free
nodes; used by the public stats surface" (spec §4.3).  `Heap::get_stats`
calls it but the checked-in `free_list.rs` predates it. -/
def flBytes (l : List FreeBlock) : Nat := (l.map FreeBlock.size).sum

/-- The span type yielded by the heap iterator (`src/heap.rs`). -/
inductive SpanType where
  | Color (color : Color)
  | Free
deriving DecidableEq, Repr

/-- The GC phase machine (`src/heap.rs`). -/
inductive Phase where
  | QUIET
  | MARKING
  | MARKED
deriving DecidableEq, Repr

/-- Stats returned from `Heap::get_stats`. -/
structure HeapStats where
  total_bytes : Nat
  free_bytes : Nat
  start : Nat
  end_ : Nat
deriving DecidableEq, Repr

/-- The heap driver state (`src/heap.rs`).  `start`/`end_` delimit the pool,
`mem` is the pool RAM at word granularity (`mem p` is the machine word at
word-aligned address `p`), and the null raw pointers `check_start`/`check_end`
become `Option Nat` (`none` = null; the source sets and clears the two fields
together). -/
structure Heap where
  start : Nat
  end_ : Nat
  blocks : Nat
  color_map : ColorMap
  free_list : List FreeBlock
  current_color : Color
  phase : Phase
  check_start : Option Nat
  check_end : Option Nat
  mem : Nat → Nat

namespace Heap

/-- `Heap::new`, for a backing region at address `base` of `len` bytes whose
current word contents are `mem0`.  The color map is carved from the tail, the
pool from the front, and the whole pool becomes one free node. -/
def new (base len : Nat) (mem0 : Nat → Nat) : Heap :=
  let divisor := 1 + BLOCKS_PER_COLORMAP_BYTE * BLOCK_SIZE_BYTES
  let color_map_size := div_ceil len divisor
  let pool_size := floor_to (len - color_map_size) BLOCK_SIZE_BYTES
  let blocks := pool_size / BLOCK_SIZE_BYTES
  { start := base
    end_ := base + pool_size
    blocks := blocks
    color_map := ColorMap.new color_map_size
    free_list := [⟨base, pool_size⟩]
    current_color := Color.Blue
    phase := Phase.QUIET
    check_start := none
    check_end := none
    mem := mem0 }

/-- `Heap::address_of`. -/
def address_of (h : Heap) (block : Nat) : Nat := h.start + block * BLOCK_SIZE_BYTES

/-- The `while get(b) == Continue { b -= 1 }` walk of `Heap::block_of`.
At block 0 the Rust loop would underflow; under the data-model invariant
block 0 of the pool is never `Continue`, so that case is unreachable. -/
def walkBack (cm : ColorMap) : Nat → Nat
  | 0 => 0
  | b + 1 => if cm.get (b + 1) = Color.Continue then walkBack cm b else b + 1

/-- `Heap::block_of`: raw block index of `p`, anchored to the head of its
`Continue` run. -/
def block_of (h : Heap) (p : Nat) : Nat :=
  walkBack h.color_map ((p - h.start) / BLOCK_SIZE_BYTES)

/-- `Heap::block_range_of`. -/
def block_range_of (h : Heap) (memory : Memory) (color : Color) : BlockRange :=
  let start := h.block_of memory.start
  { start := start, end_ := start + memory.size / BLOCK_SIZE_BYTES, color := color }

/-- `Heap::is_block`: inside the pool and word-aligned. -/
def is_block (h : Heap) (p : Nat) : Bool :=
  decide (h.start ≤ p) && decide (p < h.end_) && decide (p % WORD_SIZE = 0)

/-- `Heap::get_range`. -/
def get_range (h : Heap) (p : Nat) : BlockRange :=
  h.color_map.get_range (h.block_of p)

/-- `Memory::clear` acting on the RAM model: all words of the span become 0. -/
def clearMem (mem : Nat → Nat) (m : Memory) : Nat → Nat :=
  fun a => if m.start ≤ a ∧ a < m.start + m.size then 0 else mem a

/-- `Heap::add_to_check_span`: widen the gray `[check_start, check_end]`
envelope to include `p`. -/
def add_to_check_span (h : Heap) (p : Nat) : Heap :=
  let cs := match h.check_start with
    | none => p
    | some s => if s > p then p else s
  let ce := match h.check_end with
    | none => p
    | some e => if e < p then p else e
  { h with check_start := some cs, check_end := some ce }

/-- `Heap::allocate`: round up, carve from the free list, paint the range
(`Check` plus a gray-envelope entry while `MARKING`, else the current color),
zero the bytes. -/
def allocate (h : Heap) (amount : Nat) : Option Memory × Heap :=
  match flAllocate (ceil_to amount BLOCK_SIZE_BYTES) h.free_list with
  | none => (none, h)
  | some (m, fl) =>
    let color := if h.phase = Phase.MARKING then Color.Check else h.current_color
    let h1 := { h with free_list := fl,
                       color_map := h.color_map.set_range (h.block_range_of m color) }
    let h2 := if h1.phase = Phase.MARKING then h1.add_to_check_span m.start else h1
    (some m, { h2 with mem := clearMem h2.mem m })

/-- `Heap::allocate_object::<T>` requests `size_of::<T>()` bytes (the
`T::default()` store writes object words; they do not touch the GC state). -/
def allocate_object (h : Heap) (size : Nat) : Option Memory × Heap :=
  h.allocate size

/-- `Heap::allocate_array::<T>` requests `count * size_of::<T>()` bytes. -/
def allocate_array (h : Heap) (size count : Nat) : Option Memory × Heap :=
  h.allocate (size * count)

/-- A mutator store of word `v` at address `p` (the object writes done through
references the heap handed out). -/
def writeWord (h : Heap) (p v : Nat) : Heap :=
  { h with mem := fun a => if a = p then v else h.mem a }

/-- `Heap::retire`: paint the span free (`Check`) and give it back. -/
def retire (h : Heap) (m : Memory) : Heap :=
  { h with color_map := h.color_map.free_range (h.block_range_of m Color.Check)
           free_list := flRetire m h.free_list }

/-- `Heap::retire_object`: recover the span from the object pointer, then as
`retire`. -/
def retire_object (h : Heap) (p : Nat) : Heap :=
  let range := h.get_range p
  let m : Memory := ⟨h.address_of range.start, h.address_of range.end_ - h.address_of range.start⟩
  { h with color_map := h.color_map.free_range range
           free_list := flRetire m h.free_list }

/-- `Heap::size_of`. -/
def size_of (h : Heap) (p : Nat) : Nat :=
  let range := h.get_range p
  h.address_of range.end_ - h.address_of range.start

/-- `Heap::check` (internal): a conservative candidate pointer; if it lands in
the pool and its run carries the condemned color, gray it. -/
def check (h : Heap) (p : Nat) : Heap :=
  if h.is_block p then
    let block := h.block_of p
    if h.color_map.get block = h.current_color.opposite then
      ({ h with color_map := h.color_map.set block Color.Check }).add_to_check_span p
    else h
  else h

/-- `Heap::mark_start`: only legal in `QUIET` (the Rust `assert!` becomes
`none`).  Clears the envelope, flips the current color, checks every root. -/
def mark_start (h : Heap) (roots : List Nat) : Option Heap :=
  if h.phase ≠ Phase.QUIET then none else
  let h1 := { h with check_start := none, check_end := none,
                     current_color := h.current_color.opposite }
  some { roots.foldl check h1 with phase := Phase.MARKING }

/-- `Heap::mark_check`: the write barrier; re-gray a modified object. -/
def mark_check (h : Heap) (p : Nat) : Heap :=
  if h.is_block p then
    let block := h.block_of p
    ({ h with color_map := h.color_map.set block Color.Check }).add_to_check_span p
  else h

/-- The word scan of one `Check` run in `mark_round`: every word-aligned slot
in `[p, e)` is read from RAM and fed to `check`.  Fuel: the loop advances `p`
by a word each step, so `e - p` steps always suffice. -/
def scanWords : Nat → Heap → Nat → Nat → Heap
  | 0, h, _, _ => h
  | fuel + 1, h, p, e =>
    if p < e then scanWords fuel (h.check (h.mem p)) (p + WORD_SIZE) e else h

/-- The `while current <= end` walk of `Heap::mark_round` over the captured
envelope: resolve the run at `current`, scan and repaint it if it is `Check`,
and jump to the run's end.  Each iteration advances `current` by at least one
block (the run's end lies past `current`'s raw block), so `e + BLOCK_SIZE_BYTES`
fuel always suffices; on exhausted fuel the walk stops (unreachable). -/
def markWalk : Nat → Heap → Nat → Nat → Heap
  | 0, h, _, _ => h
  | fuel + 1, h, current, e =>
    if current > e then h else
    let r := h.get_range current
    let endAddr := h.address_of r.end_
    let h' := if r.color = Color.Check then
        let h2 := scanWords (endAddr - h.address_of r.start) h (h.address_of r.start) endAddr
        { h2 with color_map := h2.color_map.set (h2.block_of current) h2.current_color }
      else h
    if current < endAddr then markWalk fuel h' endAddr e else h'

/-- `Heap::mark_round`: only legal in `MARKING`.  An empty envelope finishes
the phase; otherwise capture and clear the envelope, walk it, and report
whether new gray spans appeared. -/
def mark_round (h : Heap) : Option (Bool × Heap) :=
  if h.phase ≠ Phase.MARKING then none else
  match h.check_start, h.check_end with
  | none, _ => some (true, { h with phase := Phase.MARKED })
  | some s, some e =>
    let h1 := { h with check_start := none, check_end := none }
    let h2 := markWalk (e + BLOCK_SIZE_BYTES) h1 s e
    match h2.check_start with
    | none => some (true, { h2 with phase := Phase.MARKED })
    | some _ => some (false, h2)
  | some _, none => none

/-- The number of blocks currently carrying the condemned color; the measure
that makes the mark phase terminate. -/
def condemnedCount (h : Heap) : Nat :=
  (List.range h.blocks).countP fun b => h.color_map.get b = h.current_color.opposite

/-- The `while !mark_round() {}` loop of `Heap::mark`, on fuel. -/
def markLoop : Nat → Heap → Option Heap
  | 0, _ => none
  | fuel + 1, h =>
    match h.mark_round with
    | none => none
    | some (true, h') => some h'
    | some (false, h') => markLoop fuel h'

/-- `Heap::mark` = `mark_start` then `mark_round` until it reports done.
Each round that returns `false` grays (and thereby un-condemns) at least one
block and no round condemns one, so `condemnedCount + 1` rounds always
suffice (the termination theorem below proves this bound). -/
def mark (h : Heap) (roots : List Nat) : Option Heap :=
  (h.mark_start roots).bind fun h1 => markLoop (h1.condemnedCount + 1) h1

/-- One positional insertion of `FreeListSpan::insert` (`src/free_list.rs`):
`insert_point.try_insert_after(m)` then `ptr.try_insert_before(m)`, asserting
success.  `rdone` is the reversed list of free nodes already passed by the
heap iterator (its head is the node `insert_point` points at; when it is
empty `insert_point` and `ptr` both still point at the list head), `pend` is
the rest of the list. -/
def spanInsert (rdone pend : List FreeBlock) (m : Memory) :
    Option (List FreeBlock × List FreeBlock) :=
  match rdone with
  | last :: rest =>
    if last.end_ = m.start then
      let grown : FreeBlock := ⟨last.start, last.size + m.size⟩
      match pend with
      | head :: tail =>
        if grown.end_ = head.start then
          some (⟨grown.start, grown.size + head.size⟩ :: rest, tail)
        else
          some (grown :: rest, head :: tail)
      | [] => some (grown :: rest, [])
    else
      match pend with
      | head :: tail =>
        if head.start > m.start then some (rdone, checkMergeNext ⟨m.start, m.size⟩ (head :: tail))
        else none
      | [] => none
  | [] =>
    match pend with
    | head :: tail =>
      if head.end_ = m.start then
        some ([], checkMergeNext ⟨head.start, head.size + m.size⟩ tail)
      else if head.start > m.start then
        some ([], checkMergeNext ⟨m.start, m.size⟩ (head :: tail))
      else none
    | [] => some ([], [⟨m.start, m.size⟩])

/-- The heap iterator (`HeapIterator::next`) driving `Heap::sweep`, fused with
sweep's filter-and-insert.  `rdone` (reversed) and `pend` split the evolving
free list around the iterator's positional span.  In address order: a free
node behind `current` (just inserted) is skipped; a free node at `current` is
yielded as a free span; otherwise the color map yields a run, and if it
carries the condemned color its memory is inserted at the positional span.
Modelled from the spec (§4.3 "Free-list span", §4.5 "Heap iterator"): the
positional cursor starts out as the pair of list heads; the checked-in
`free_list.rs` predates the heap driver's `iter_span` (as it does
`FreeList::bytes`).  Each step advances the address cursor or consumes a
pending node, so `2 * end_ + pend.length + 2` fuel always suffices. -/
def sweepWalk (condemned : Color) : Nat → Heap → Nat → List FreeBlock → List FreeBlock →
    Option (List FreeBlock)
  | 0, _, _, _, _ => none
  | fuel + 1, h, current, rdone, pend =>
    if current ≥ h.end_ then some (rdone.reverse ++ pend) else
    match pend with
    | n :: rest =>
      if n.start < current then sweepWalk condemned fuel h current (n :: rdone) rest
      else if n.start = current then sweepWalk condemned fuel h n.end_ (n :: rdone) rest
      else
        let r := h.get_range current
        let e := h.address_of r.end_
        if e ≤ current then none
        else if r.color = condemned then
          match spanInsert rdone (n :: rest) ⟨current, e - current⟩ with
          | none => none
          | some (rdone', pend') => sweepWalk condemned fuel h e rdone' pend'
        else sweepWalk condemned fuel h e rdone (n :: rest)
    | [] =>
      let r := h.get_range current
      let e := h.address_of r.end_
      if e ≤ current then none
      else if r.color = condemned then
        match spanInsert rdone [] ⟨current, e - current⟩ with
        | none => none
        | some (rdone', pend') => sweepWalk condemned fuel h e rdone' pend'
      else sweepWalk condemned fuel h e rdone []

/-- `Heap::sweep`: only legal in `MARKED`.  Every span carrying the condemned
color is returned to the free list at the iterator's positional span; the
failed `assert!` of a positional insert becomes `none`.  (The color map is
not touched.) -/
def sweep (h : Heap) : Option Heap :=
  if h.phase ≠ Phase.MARKED then none else
  (sweepWalk h.current_color.opposite (2 * h.end_ + h.free_list.length + 2)
      h h.start [] h.free_list).map
    fun fl => { h with free_list := fl, phase := Phase.QUIET }

/-- `Heap::gc` = `mark` then `sweep`. -/
def gc (h : Heap) (roots : List Nat) : Option Heap :=
  (h.mark roots).bind sweep

/-- `Heap::get_mark_range` (null pointers as `none`). -/
def get_mark_range (h : Heap) : Option Nat × Option Nat :=
  (h.check_start, h.check_end)

/-- `Heap::get_stats`. -/
def get_stats (h : Heap) : HeapStats :=
  { total_bytes := h.blocks * BLOCK_SIZE_BYTES
    free_bytes := flBytes h.free_list
    start := h.start
    end_ := h.end_ }

/-- The read-only heap iterator behind `Heap::dump`: the list of spans in
address order, each with its span type and byte length. -/
def iterSpans : Nat → Heap → Nat → List FreeBlock → Option (List (SpanType × Nat))
  | 0, _, _, _ => none
  | fuel + 1, h, current, pend =>
    if current ≥ h.end_ then some [] else
    match pend with
    | n :: rest =>
      if n.start < current then iterSpans fuel h current rest
      else if n.start = current then
        (iterSpans fuel h n.end_ rest).map fun l => (SpanType.Free, n.size) :: l
      else
        let r := h.get_range current
        let e := h.address_of r.end_
        if e ≤ current then none
        else (iterSpans fuel h e (n :: rest)).map fun l => (SpanType.Color r.color, e - current) :: l
    | [] =>
      let r := h.get_range current
      let e := h.address_of r.end_
      if e ≤ current then none
      else (iterSpans fuel h e []).map fun l => (SpanType.Color r.color, e - current) :: l

/-- `fmt::Debug` for a span type. -/
def spanTypeStr : SpanType → String
  | SpanType.Free => "FREE"
  | SpanType.Color Color.Blue => "Blue"
  | SpanType.Color Color.Green => "Green"
  | SpanType.Color Color.Check => "Check"
  | SpanType.Color Color.Continue => "Continue"

/-- `Heap::dump`: the span list as `"Type[len], ..."`. -/
def dump (h : Heap) : Option String :=
  (iterSpans (h.end_ + h.free_list.length + 2) h h.start h.free_list).map fun spans =>
    String.intercalate ", " (spans.map fun s => spanTypeStr s.1 ++ "[" ++ toString s.2 ++ "]")

/-- `Heap::dump_spans`: only the span types. -/
def dump_spans (h : Heap) : Option String :=
  (iterSpans (h.end_ + h.free_list.length + 2) h h.start h.free_list).map fun spans =>
    String.intercalate ", " (spans.map fun s => spanTypeStr s.1)

end Heap

/-! ## Invariant predicates and concrete demonstration states -/

/-- Well-formedness of the packed map: every byte is a byte. -/
abbrev mapWf (cm : ColorMap) : Prop := ∀ b ∈ cm.bits, b < 256

/-- Strong free-list invariant: the regions are pairwise disjoint in strictly
ascending order (each node ends strictly before the next begins: invariants
I1 and I2 together with non-overlap). -/
abbrev flStrong (l : List FreeBlock) : Prop :=
  List.Pairwise (fun a b => a.end_ < b.start) l

/-- Invariant I1 as the spec words it: the free list is sorted by strictly
ascending address. -/
abbrev flSorted (l : List FreeBlock) : Prop :=
  List.Chain' (fun a b => a.start < b.start) l

/-- Invariant I2 as the spec words it: no two adjacent free nodes share a
boundary. -/
abbrev flNoTouch (l : List FreeBlock) : Prop :=
  List.Chain' (fun a b => a.end_ ≠ b.start) l

/-- The per-adjacent-pair conjunction of I1 and I2: strictly ascending starts
and no shared boundary. -/
abbrev flRel (a b : FreeBlock) : Prop := a.start < b.start ∧ a.end_ ≠ b.start

/-- The combined per-adjacent-pair form of I1 and I2 used by the loop
invariants below. -/
abbrev flLit (l : List FreeBlock) : Prop := List.Chain' flRel l

/-- All node sizes are positive multiples of the block size (the heap only
ever carves block-multiples, and a free region must hold a header). -/
abbrev flSizes (l : List FreeBlock) : Prop :=
  ∀ b ∈ l, 0 < b.size ∧ b.size % BLOCK_SIZE_BYTES = 0

/-- All-zero RAM for the demonstration heaps. -/
def zmem : Nat → Nat := fun _ => 0

/-- A fresh heap over a 256-byte backing region at address 1024 (the layout
of every scenario in the spec and the repository tests). -/
def demoHeap : Heap := Heap.new 1024 256 zmem

/-- A hand-built heap in the `MARKED` phase: one 16-byte `Blue` allocation at
the pool base (byte 0 of the map is `0b11111101`), the rest free.  Used to
exercise `sweep` in witnesses. -/
def demoMarked : Heap :=
  { start := 1024, end_ := 1264, blocks := 15
    color_map := ⟨[253, 255, 255, 255]⟩
    free_list := [⟨1040, 224⟩]
    current_color := Color.Green, phase := Phase.MARKED
    check_start := none, check_end := none, mem := zmem }

/-- The C2 scenario: one 16-byte allocation, then a full collection with no
roots. -/
def gcStale1 : Option Heap := ((Heap.new 1024 256 zmem).allocate 16).2.gc []

/-- The C1 scenario: three allocations (16, 32, 16 bytes), then a full
collection rooted at the middle object (address 1040). -/
def gcStale2 : Option Heap :=
  (((((Heap.new 1024 256 zmem).allocate 16).2.allocate 32).2.allocate 16).2).gc [1040]

/-- The state invariant used by the mark-termination argument: the packed
map holds bytes, the current color is one of the two live colors, the pool
geometry is consistent, and the two envelope pointers are null together
(the source sets and clears them together). -/
abbrev Hinv (h : Heap) : Prop :=
  mapWf h.color_map ∧
  (h.current_color = Color.Blue ∨ h.current_color = Color.Green) ∧
  h.end_ = h.start + h.blocks * BLOCK_SIZE_BYTES ∧
  h.check_start.isSome = h.check_end.isSome

/-- The GC-machinery fields that the mark-phase walks never change. -/
abbrev gcFrame (h h' : Heap) : Prop :=
  h'.start = h.start ∧ h'.end_ = h.end_ ∧ h'.blocks = h.blocks ∧
  h'.current_color = h.current_color ∧ h'.phase = h.phase

/-- The heap of the spec's mark scenarios, paused in `MARKING`: two 32-byte
objects at 1024 and 1056, the first pointing at the second, after
`mark_start([o1])`. -/
def markDemo : Heap :=
  (((((Heap.new 1024 256 zmem).allocate 32).2.allocate 32).2.writeWord 1024 1056).mark_start
    [1024]).getD (Heap.new 1024 256 zmem)

/-- The same two-object heap before `mark_start`: phase `QUIET`. -/
def preMarkDemo : Heap :=
  ((((Heap.new 1024 256 zmem).allocate 32).2.allocate 32).2.writeWord 1024 1056)

/-- The pool geometry fields behind `get_stats`'s fixed outputs. -/
abbrev poolFrame (h h' : Heap) : Prop :=
  h'.start = h.start ∧ h'.end_ = h.end_ ∧ h'.blocks = h.blocks

/-- The stats outputs that C10 claims are fixed after construction:
`total_bytes` and the pool's `start` and `end` addresses. -/
def poolTriple (h : Heap) : Nat × Nat × Nat :=
  (h.get_stats.total_bytes, h.get_stats.start, h.get_stats.end_)

/-- Invariant I3 of the data model: every free region reads `Check` across
all of its blocks in the color map. -/
abbrev flChecked (h : Heap) : Prop :=
  ∀ b ∈ h.free_list, ∀ i, i < b.size / BLOCK_SIZE_BYTES →
    h.color_map.get ((b.start - h.start) / BLOCK_SIZE_BYTES + i) = Color.Check

/-- The geometric half of the data model: the pool ends `blocks` blocks after
`start`, the packed map has a slot for every pool block, and every free node
lies block-aligned inside the pool. -/
abbrev poolWf (h : Heap) : Prop :=
  h.end_ = h.start + h.blocks * BLOCK_SIZE_BYTES ∧
  h.blocks ≤ h.color_map.len ∧
  ∀ b ∈ h.free_list, h.start ≤ b.start ∧
    (b.start - h.start) % BLOCK_SIZE_BYTES = 0 ∧ b.end_ ≤ h.end_

/-! ## List helper lemmas (indexing with defaults) -/

theorem getD_set_self (l : List Nat) (i v : Nat) (h : i < l.length) :
    (l.set i v).getD i 0 = v := by
  induction l generalizing i with
  | nil => simp at h
  | cons a t ih =>
    cases i with
    | zero => rfl
    | succ j => simpa using ih j (by simpa using h)

theorem getD_set_ne (l : List Nat) (i j v : Nat) (h : i ≠ j) :
    (l.set i v).getD j 0 = l.getD j 0 := by
  induction l generalizing i j with
  | nil => simp
  | cons a t ih =>
    cases i with
    | zero =>
      cases j with
      | zero => exact absurd rfl h
      | succ j' => rfl
    | succ i' =>
      cases j with
      | zero => rfl
      | succ j' => simpa using ih i' j' (by omega)

theorem set_oob (l : List Nat) (i v : Nat) (h : l.length ≤ i) : l.set i v = l := by
  induction l generalizing i with
  | nil => rfl
  | cons a t ih =>
    cases i with
    | zero => simp at h
    | succ j => simpa using ih j (by simpa using h)

theorem getD_lt_of_forall (l : List Nat) (j : Nat) (h : ∀ b ∈ l, b < 256) :
    l.getD j 0 < 256 := by
  induction l generalizing j with
  | nil => simp
  | cons a t ih =>
    cases j with
    | zero => exact h a (List.mem_cons_self a t)
    | succ j' => exact ih j' fun b hb => h b (List.mem_cons_of_mem a hb)

/-! ## Color map lemmas -/


theorem new_mapWf (n : Nat) : mapWf (ColorMap.new n) := by
  intro b hb
  have := List.eq_of_mem_replicate hb
  omega

theorem toBits_lt (c : Color) : c.toBits < 4 := by cases c <;> decide

theorem from_bits_toBits (c : Color) : Color.from_bits c.toBits = c := by cases c <;> rfl

theorem land_three (n : Nat) : n &&& 3 = n % 4 := Nat.and_pow_two_sub_one_eq_mod n 2

/-- The 2-bit slot written by `set` reads back the written color
(byte-level fact, by exhaustion). -/
theorem bitSlotSame : ∀ x < 256, ∀ i < 4, ∀ c < 4,
    (((x &&& (255 ^^^ (3 <<< (i * 2)))) ||| (c <<< (i * 2))) &&& (3 <<< (i * 2))) >>> (i * 2)
      = c := by decide

/-- A `set` to one 2-bit slot leaves the other slots of the byte unchanged
(byte-level fact, by exhaustion). -/
theorem bitSlotFrame : ∀ x < 256, ∀ i < 4, ∀ j < 4, ∀ c < 4, i ≠ j →
    (((x &&& (255 ^^^ (3 <<< (i * 2)))) ||| (c <<< (i * 2))) &&& (3 <<< (j * 2))) >>> (j * 2)
      = (x &&& (3 <<< (j * 2))) >>> (j * 2) := by decide

/-- The byte stored by `ColorMap.set` is still a byte, whatever the input. -/
theorem set_byte_lt (x : Nat) (c : Color) (s : Nat) (hs : s < 4) :
    ((x &&& (255 ^^^ (3 <<< (s * 2)))) ||| (c.toBits <<< (s * 2))) < 256 := by
  have h1 : x &&& (255 ^^^ (3 <<< (s * 2))) < 256 :=
    Nat.lt_of_le_of_lt Nat.and_le_right (by interval_cases s <;> decide)
  have h2 : c.toBits <<< (s * 2) < 256 := by
    have := toBits_lt c
    interval_cases s <;> omega
  have h := Nat.or_lt_two_pow (n := 8) h1 h2
  exact h

theorem set_mapWf (cm : ColorMap) (n : Nat) (c : Color) (hwf : mapWf cm) :
    mapWf (cm.set n c) := by
  intro b hb
  rcases List.mem_or_eq_of_mem_set hb with h | h
  · exact hwf b h
  · subst h
    exact set_byte_lt _ c (n &&& 3) (by rw [land_three]; omega)

theorem ColorMap.get_set_same (cm : ColorMap) (n : Nat) (c : Color)
    (hn : n / 4 < cm.bits.length) (hwf : mapWf cm) : (cm.set n c).get n = c := by
  simp only [ColorMap.get, ColorMap.set]
  rw [getD_set_self cm.bits (n / 4) _ hn]
  rw [bitSlotSame _ (getD_lt_of_forall cm.bits (n / 4) hwf) _
        (by rw [land_three]; omega) _ (toBits_lt c)]
  exact from_bits_toBits c

theorem ColorMap.get_set_other (cm : ColorMap) (n m : Nat) (c : Color)
    (hnm : n ≠ m) (hwf : mapWf cm) : (cm.set n c).get m = cm.get m := by
  simp only [ColorMap.get, ColorMap.set]
  by_cases hb : n / 4 = m / 4
  · by_cases hlen : n / 4 < cm.bits.length
    · rw [← hb, getD_set_self cm.bits (n / 4) _ hlen]
      have hslot : n &&& 3 ≠ m &&& 3 := by
        rw [land_three, land_three]
        intro hmod
        apply hnm
        omega
      exact congrArg Color.from_bits
        (bitSlotFrame _ (getD_lt_of_forall cm.bits (n / 4) hwf) _
          (by rw [land_three]; omega) _ (by rw [land_three]; omega) _ (toBits_lt c) hslot)
    · rw [set_oob cm.bits (n / 4) _ (by omega)]
  · rw [getD_set_ne cm.bits (n / 4) (m / 4) _ hb]

/-- C9: for distinct in-bounds block indices `n` and `m`, `ColorMap::set(n, color)`
makes `get(n)` return exactly `color` and leaves `get(m)` unchanged — each set
touches only the 2-bit slot of its own block, even within a shared byte. -/
theorem c9_color_map_set_frame (cm : ColorMap) (n m : Nat) (c : Color)
    (hn : n < cm.len) (hm : m < cm.len) (hnm : n ≠ m) (hwf : mapWf cm) :
    (cm.set n c).get n = c ∧ (cm.set n c).get m = cm.get m := by
  have hn4 : n / 4 < cm.bits.length := by
    rw [Nat.div_lt_iff_lt_mul (by norm_num : 0 < 4)]
    simpa [ColorMap.len, BLOCKS_PER_COLORMAP_BYTE] using hn
  exact ⟨ColorMap.get_set_same cm n c hn4 hwf, ColorMap.get_set_other cm n m c hnm hwf⟩

/-- Witness for C9: blocks 2 and 3 share a byte of a fresh 4-byte map. -/
theorem c9_color_map_set_frame_witness :
    ((ColorMap.new 4).set 2 Color.Green).get 2 = Color.Green ∧
    ((ColorMap.new 4).set 2 Color.Green).get 3 = (ColorMap.new 4).get 3 :=
  c9_color_map_set_frame (ColorMap.new 4) 2 3 Color.Green (by decide) (by decide)
    (by decide) (by decide)

/-! ## Free-list invariants -/


theorem flStrong_flLit (l : List FreeBlock) (h : flStrong l) : flLit l := by
  refine List.Chain'.imp ?_ (List.Pairwise.chain' h)
  intro a b hab
  refine ⟨?_, by omega⟩
  have ha : a.start ≤ a.end_ := Nat.le_add_right _ _
  omega

theorem flLit_flSorted (l : List FreeBlock) (h : flLit l) : flSorted l :=
  List.Chain'.imp (fun _ _ hab => hab.1) h

theorem flLit_flNoTouch (l : List FreeBlock) (h : flLit l) : flNoTouch l :=
  List.Chain'.imp (fun _ _ hab => hab.2) h

/-! ## `flAllocate` lemmas (C3, C4, C6) -/

theorem ceil_to_mod (n : Nat) : ceil_to n BLOCK_SIZE_BYTES % BLOCK_SIZE_BYTES = 0 := by
  simp [ceil_to, Nat.mul_mod_left]

theorem ceil_to_pos (n : Nat) (h : 0 < n) : 0 < ceil_to n BLOCK_SIZE_BYTES := by
  unfold ceil_to div_ceil
  simp only [BLOCK_SIZE_BYTES]
  rcases Nat.eq_zero_or_pos (n % 16) with h0 | h0
  · have h1 : 16 ∣ n := Nat.dvd_of_mod_eq_zero h0
    have h2 : 0 < n / 16 := Nat.div_pos (Nat.le_of_dvd h h1) (by norm_num)
    simp [h0]
    omega
  · have : ¬ n % 16 = 0 := by omega
    simp [this]

/-- A successful first-fit allocation of a block-multiple from a
block-multiple free list returns exactly the requested amount (the
whole-node branch can only fire when the node is exactly the amount). -/
theorem flAllocate_size (amount : Nat) (l : List FreeBlock) (m : Memory)
    (l' : List FreeBlock) (hsz : ∀ b ∈ l, b.size % BLOCK_SIZE_BYTES = 0)
    (ha : amount % BLOCK_SIZE_BYTES = 0)
    (h : flAllocate amount l = some (m, l')) : m.size = amount := by
  induction l generalizing l' with
  | nil => simp [flAllocate] at h
  | cons b rest ih =>
    rw [flAllocate] at h
    by_cases hgt : amount > b.size
    · rw [if_pos hgt] at h
      cases hrec : flAllocate amount rest with
      | none => rw [hrec] at h; simp at h
      | some p =>
        obtain ⟨m0, rest0⟩ := p
        rw [hrec, Option.map_some'] at h
        simp only [Option.some.injEq, Prod.mk.injEq] at h
        obtain ⟨hm, -⟩ := h
        subst hm
        exact ih rest0 (fun x hx => hsz x (List.mem_cons_of_mem b hx)) hrec
    · rw [if_neg hgt] at h
      have hb := hsz b (List.mem_cons_self b rest)
      by_cases hsmall : b.size - amount < FREE_BLOCK_SIZE
      · rw [if_pos hsmall] at h
        simp only [Option.some.injEq, Prod.mk.injEq] at h
        obtain ⟨hm, -⟩ := h
        rw [← hm]
        show b.size = amount
        simp only [FREE_BLOCK_SIZE] at hsmall
        simp only [BLOCK_SIZE_BYTES] at hb ha
        omega
      · rw [if_neg hsmall] at h
        simp only [Option.some.injEq, Prod.mk.injEq] at h
        obtain ⟨hm, -⟩ := h
        rw [← hm]

/-- First-fit fails exactly when no node is large enough. -/
theorem flAllocate_none_iff (amount : Nat) (l : List FreeBlock) :
    flAllocate amount l = none ↔ ∀ b ∈ l, b.size < amount := by
  induction l with
  | nil => simp [flAllocate]
  | cons b rest ih =>
    rw [flAllocate]
    by_cases hgt : amount > b.size
    · rw [if_pos hgt]
      constructor
      · intro h x hx
        rcases List.mem_cons.mp hx with rfl | hx'
        · exact hgt
        · refine ih.mp ?_ x hx'
          cases hrec : flAllocate amount rest with
          | none => rfl
          | some p => rw [hrec, Option.map_some'] at h; exact absurd h (by simp)
      · intro h
        rw [ih.mpr fun x hx => h x (List.mem_cons_of_mem b hx)]
        rfl
    · rw [if_neg hgt]
      constructor
      · intro h
        by_cases hsmall : b.size - amount < FREE_BLOCK_SIZE <;> simp [hsmall] at h
      · intro h
        exact absurd (h b (List.mem_cons_self b rest)) (by omega)

/-- Every start address in the allocation result comes from the original
list or is a split point above an original start. -/
theorem flAllocate_mem_start (amount : Nat) (l : List FreeBlock) (m : Memory)
    (l' : List FreeBlock) (h : flAllocate amount l = some (m, l')) :
    ∀ x ∈ l', ∃ y ∈ l, y.start ≤ x.start := by
  induction l generalizing l' with
  | nil => simp [flAllocate] at h
  | cons b rest ih =>
    rw [flAllocate] at h
    by_cases hgt : amount > b.size
    · rw [if_pos hgt] at h
      cases hrec : flAllocate amount rest with
      | none => rw [hrec] at h; simp at h
      | some p =>
        obtain ⟨m0, rest0⟩ := p
        rw [hrec, Option.map_some'] at h
        simp only [Option.some.injEq, Prod.mk.injEq] at h
        obtain ⟨hm, hl⟩ := h
        subst hm
        intro x hx
        rw [← hl] at hx
        rcases List.mem_cons.mp hx with rfl | hx'
        · exact ⟨x, List.mem_cons_self x rest, le_refl _⟩
        · obtain ⟨y, hy, hle⟩ := ih rest0 hrec x hx'
          exact ⟨y, List.mem_cons_of_mem b hy, hle⟩
    · rw [if_neg hgt] at h
      by_cases hsmall : b.size - amount < FREE_BLOCK_SIZE
      · rw [if_pos hsmall] at h
        simp only [Option.some.injEq, Prod.mk.injEq] at h
        intro x hx
        exact ⟨x, List.mem_cons_of_mem b (h.2 ▸ hx), le_refl _⟩
      · rw [if_neg hsmall] at h
        simp only [Option.some.injEq, Prod.mk.injEq] at h
        intro x hx
        rw [← h.2] at hx
        rcases List.mem_cons.mp hx with rfl | hx'
        · exact ⟨b, List.mem_cons_self b rest, Nat.le_add_right _ _⟩
        · exact ⟨x, List.mem_cons_of_mem b hx', le_refl _⟩

/-- The starting address of a successful allocation is the start of one of
the free nodes. -/
theorem flAllocate_start (amount : Nat) (l : List FreeBlock) (m : Memory)
    (l' : List FreeBlock) (h : flAllocate amount l = some (m, l')) :
    ∃ y ∈ l, m.start = y.start := by
  induction l generalizing l' with
  | nil => simp [flAllocate] at h
  | cons b rest ih =>
    rw [flAllocate] at h
    by_cases hgt : amount > b.size
    · rw [if_pos hgt] at h
      cases hrec : flAllocate amount rest with
      | none => rw [hrec] at h; simp at h
      | some p =>
        obtain ⟨m0, rest0⟩ := p
        rw [hrec, Option.map_some'] at h
        simp only [Option.some.injEq, Prod.mk.injEq] at h
        obtain ⟨hm, -⟩ := h
        subst hm
        obtain ⟨y, hy, he⟩ := ih rest0 hrec
        exact ⟨y, List.mem_cons_of_mem b hy, he⟩
    · rw [if_neg hgt] at h
      by_cases hsmall : b.size - amount < FREE_BLOCK_SIZE
      · rw [if_pos hsmall] at h
        simp only [Option.some.injEq, Prod.mk.injEq] at h
        exact ⟨b, List.mem_cons_self b rest, by rw [← h.1]⟩
      · rw [if_neg hsmall] at h
        simp only [Option.some.injEq, Prod.mk.injEq] at h
        exact ⟨b, List.mem_cons_self b rest, by rw [← h.1]⟩

/-- Allocation preserves the strong invariant and the size invariant. -/
theorem flAllocate_inv (amount : Nat) (l : List FreeBlock) (m : Memory)
    (l' : List FreeBlock) (hstrong : flStrong l) (hsz : flSizes l)
    (ha : amount % BLOCK_SIZE_BYTES = 0)
    (h : flAllocate amount l = some (m, l')) : flStrong l' ∧ flSizes l' := by
  induction l generalizing l' with
  | nil => simp [flAllocate] at h
  | cons b rest ih =>
    rw [flAllocate] at h
    obtain ⟨hstrong1, hstrong2⟩ := List.pairwise_cons.mp hstrong
    by_cases hgt : amount > b.size
    · rw [if_pos hgt] at h
      cases hrec : flAllocate amount rest with
      | none => rw [hrec] at h; simp at h
      | some p =>
        obtain ⟨m0, rest0⟩ := p
        rw [hrec, Option.map_some'] at h
        simp only [Option.some.injEq, Prod.mk.injEq] at h
        obtain ⟨hm, hl⟩ := h
        subst hm
        obtain ⟨hs', hz'⟩ := ih rest0 hstrong2
          (fun x hx => hsz x (List.mem_cons_of_mem b hx)) hrec
        rw [← hl]
        refine ⟨List.pairwise_cons.mpr ⟨?_, hs'⟩, ?_⟩
        · intro x hx
          obtain ⟨y, hy, hle⟩ := flAllocate_mem_start amount rest m0 rest0 hrec x hx
          exact Nat.lt_of_lt_of_le (hstrong1 y hy) hle
        · intro x hx
          rcases List.mem_cons.mp hx with rfl | hx'
          · exact hsz x (List.mem_cons_self x rest)
          · exact hz' x hx'
    · rw [if_neg hgt] at h
      have hb := hsz b (List.mem_cons_self b rest)
      by_cases hsmall : b.size - amount < FREE_BLOCK_SIZE
      · rw [if_pos hsmall] at h
        simp only [Option.some.injEq, Prod.mk.injEq] at h
        rw [← h.2]
        exact ⟨hstrong2, fun x hx => hsz x (List.mem_cons_of_mem b hx)⟩
      · rw [if_neg hsmall] at h
        simp only [Option.some.injEq, Prod.mk.injEq] at h
        rw [← h.2]
        constructor
        · refine List.pairwise_cons.mpr ⟨?_, hstrong2⟩
          intro x hx
          have := hstrong1 x hx
          simp only [FreeBlock.end_] at this ⊢
          omega
        · intro x hx
          rcases List.mem_cons.mp hx with rfl | hx'
          · have hb2 := hb.2
            refine ⟨?_, ?_⟩ <;>
              simp only [FREE_BLOCK_SIZE] at hsmall <;>
              simp only [BLOCK_SIZE_BYTES] at hb2 ha ⊢ <;>
              omega
          · exact hsz x (List.mem_cons_of_mem b hx')

/-! ## Heap-level allocate lemmas -/

/-- Inversion of a successful `Heap::allocate`: which free-list call produced
it, and that the returned span was zeroed last. -/
theorem allocate_some_inv (h : Heap) (amount : Nat) (m : Memory) (h' : Heap)
    (halloc : h.allocate amount = (some m, h')) :
    flAllocate (ceil_to amount BLOCK_SIZE_BYTES) h.free_list = some (m, h'.free_list) ∧
    (∀ a, m.start ≤ a → a < m.start + m.size → h'.mem a = 0) := by
  unfold Heap.allocate at halloc
  cases hrec : flAllocate (ceil_to amount BLOCK_SIZE_BYTES) h.free_list with
  | none => rw [hrec] at halloc; exact absurd halloc (by simp)
  | some p =>
    obtain ⟨m0, fl⟩ := p
    rw [hrec] at halloc
    simp only [Prod.mk.injEq, Option.some.injEq] at halloc
    obtain ⟨hm, hh⟩ := halloc
    subst hm
    subst hh
    by_cases hph : h.phase = Phase.MARKING <;>
      simp only [hph, if_true, if_false, ite_true, ite_false, Heap.add_to_check_span] <;>
      refine ⟨?_, fun a ha1 ha2 => ?_⟩
    · trivial
    · simp [Heap.clearMem, ha1, ha2]
    · trivial
    · simp [Heap.clearMem, ha1, ha2]

/-- On a failed `Heap::allocate`, the state is returned untouched. -/
theorem allocate_none_inv (h : Heap) (amount : Nat)
    (hnone : (h.allocate amount).1 = none) : (h.allocate amount).2 = h := by
  unfold Heap.allocate at hnone ⊢
  cases hrec : flAllocate (ceil_to amount BLOCK_SIZE_BYTES) h.free_list with
  | none => rfl
  | some p => rw [hrec] at hnone; exact absurd hnone (by simp)

/-! ## Color-map range lemmas and allocate inversion (C4) -/

theorem set_bits_length (cm : ColorMap) (n : Nat) (c : Color) :
    (cm.set n c).bits.length = cm.bits.length := by
  simp [ColorMap.set]

/-- A fold of single-slot writes leaves every slot outside the index list
untouched. -/
theorem foldl_set_get_notmem (L : List Nat) (cm : ColorMap) (c : Color) (j : Nat)
    (hwf : mapWf cm) (hj : j ∉ L) :
    (L.foldl (fun m i => m.set i c) cm).get j = cm.get j := by
  induction L generalizing cm with
  | nil => rfl
  | cons a t ih =>
    rw [List.foldl_cons]
    have hne : a ≠ j := fun he => hj (he ▸ List.mem_cons_self a t)
    rw [ih (cm.set a c) (set_mapWf cm a c hwf) fun hm => hj (List.mem_cons_of_mem a hm)]
    exact ColorMap.get_set_other cm a j c hne hwf

/-- A fold of single-slot writes over a contiguous index range makes every
in-range in-bounds slot read the written color. -/
theorem foldl_set_get_mem (n : Nat) (a j : Nat) (cm : ColorMap) (c : Color)
    (hwf : mapWf cm) (h1 : a ≤ j) (h2 : j < a + n) (hlen : j / 4 < cm.bits.length) :
    ((List.range' a n).foldl (fun m i => m.set i c) cm).get j = c := by
  induction n generalizing a cm with
  | zero => omega
  | succ k ih =>
    rw [List.range'_succ, List.foldl_cons]
    by_cases hja : j = a
    · subst hja
      rw [foldl_set_get_notmem _ _ _ _ (set_mapWf cm j c hwf)
            (by intro hmem; rw [List.mem_range'_1] at hmem; omega)]
      exact ColorMap.get_set_same cm j c hlen hwf
    · exact ih (a + 1) (cm.set a c) (set_mapWf cm a c hwf) (by omega) (by omega)
        (by rw [set_bits_length]; exact hlen)

/-- `set_range` paints the head block of a range with the range's color. -/
theorem set_range_get_head (cm : ColorMap) (s e : Nat) (c : Color) (hwf : mapWf cm)
    (hs : s / 4 < cm.bits.length) :
    (cm.set_range ⟨s, e, c⟩).get s = c := by
  unfold ColorMap.set_range
  dsimp only
  rw [foldl_set_get_notmem _ _ _ _ (set_mapWf cm s c hwf)
        (by intro hmem; rw [List.mem_range'_1] at hmem; omega)]
  exact ColorMap.get_set_same cm s c hs hwf

/-- `set_range` paints every interior block of a range `Continue`. -/
theorem set_range_get_mid (cm : ColorMap) (s e i : Nat) (c : Color) (hwf : mapWf cm)
    (hsi : s < i) (hie : i < e) (hlen : i / 4 < cm.bits.length) :
    (cm.set_range ⟨s, e, c⟩).get i = Color.Continue := by
  unfold ColorMap.set_range
  dsimp only
  exact foldl_set_get_mem (e - (s + 1)) (s + 1) i (cm.set s c) Color.Continue
    (set_mapWf cm s c hwf) (by omega) (by omega)
    (by rw [set_bits_length]; exact hlen)

/-- `set_range` over a non-empty range leaves every slot outside the range
untouched. -/
theorem set_range_get_out (cm : ColorMap) (s e j : Nat) (c : Color) (hwf : mapWf cm)
    (hse : s < e) (hj : j < s ∨ e ≤ j) :
    (cm.set_range ⟨s, e, c⟩).get j = cm.get j := by
  unfold ColorMap.set_range
  dsimp only
  rw [foldl_set_get_notmem _ _ _ _ (set_mapWf cm s c hwf)
        (by intro hmem; rw [List.mem_range'_1] at hmem; omega)]
  exact ColorMap.get_set_other cm s j c (by omega) hwf

/-- The `block_of` walk stops immediately on a block that is not `Continue`. -/
theorem walkBack_stop (cm : ColorMap) (n : Nat) (h : cm.get n ≠ Color.Continue) :
    Heap.walkBack cm n = n := by
  cases n with
  | zero => rfl
  | succ b => rw [Heap.walkBack, if_neg h]

/-- Structural inversion of a successful first-fit allocation: the span is
carved from the front of one node `y`; that node is either handed out whole
or shrunk in place, and every other node is untouched. -/
theorem flAllocate_split (amount : Nat) (l : List FreeBlock) (m : Memory)
    (l' : List FreeBlock) (h : flAllocate amount l = some (m, l')) :
    ∃ pre y post, l = pre ++ y :: post ∧ m.start = y.start ∧ m.size ≤ y.size ∧
      ((m.size = y.size ∧ l' = pre ++ post) ∨
        l' = pre ++ ⟨y.start + m.size, y.size - m.size⟩ :: post) := by
  induction l generalizing l' with
  | nil => simp [flAllocate] at h
  | cons b rest ih =>
    rw [flAllocate] at h
    by_cases hgt : amount > b.size
    · rw [if_pos hgt] at h
      cases hrec : flAllocate amount rest with
      | none => rw [hrec] at h; simp at h
      | some p =>
        obtain ⟨m0, rest0⟩ := p
        rw [hrec, Option.map_some'] at h
        simp only [Option.some.injEq, Prod.mk.injEq] at h
        obtain ⟨hm, hl⟩ := h
        subst hm
        obtain ⟨pre, y, post, hsl, hst, hle, hcase⟩ := ih rest0 hrec
        refine ⟨b :: pre, y, post, by simp [hsl], hst, hle, ?_⟩
        rcases hcase with ⟨h1, h2⟩ | h2
        · exact Or.inl ⟨h1, by simp [← hl, h2]⟩
        · exact Or.inr (by simp [← hl, h2])
    · rw [if_neg hgt] at h
      by_cases hsmall : b.size - amount < FREE_BLOCK_SIZE
      · rw [if_pos hsmall] at h
        simp only [Option.some.injEq, Prod.mk.injEq] at h
        obtain ⟨hm, hl⟩ := h
        exact ⟨[], b, rest, rfl, by simp [← hm], by simp [← hm],
          Or.inl ⟨by simp [← hm], by simp [← hl]⟩⟩
      · rw [if_neg hsmall] at h
        simp only [Option.some.injEq, Prod.mk.injEq] at h
        obtain ⟨hm, hl⟩ := h
        refine ⟨[], b, rest, rfl, by simp [← hm], ?_, Or.inr (by simp [← hl, ← hm])⟩
        rw [← hm]
        show amount ≤ b.size
        omega

/-- Inversion of a successful `Heap::allocate` on the map side: the new map is
`set_range` of the old over the carved block range, and the pool base is
untouched. -/
theorem allocate_some_map (h : Heap) (amount : Nat) (m : Memory) (h' : Heap)
    (halloc : h.allocate amount = (some m, h')) :
    h'.color_map = h.color_map.set_range (h.block_range_of m
      (if h.phase = Phase.MARKING then Color.Check else h.current_color)) ∧
    h'.start = h.start := by
  unfold Heap.allocate at halloc
  cases hrec : flAllocate (ceil_to amount BLOCK_SIZE_BYTES) h.free_list with
  | none => rw [hrec] at halloc; exact absurd halloc (by simp)
  | some p =>
    obtain ⟨m0, fl⟩ := p
    rw [hrec] at halloc
    simp only [Prod.mk.injEq, Option.some.injEq] at halloc
    obtain ⟨hm, hh⟩ := halloc
    subst hm
    subst hh
    by_cases hph : h.phase = Phase.MARKING <;>
      simp only [hph, if_true, if_false, ite_true, ite_false, Heap.add_to_check_span] <;>
      exact ⟨trivial, trivial⟩

/-- C3: whenever `allocate(amount)` succeeds, the returned span is exactly
`amount` rounded up to a block multiple — never more, even when the free list
hands out a whole node — and every byte (word) of the span is zero. -/
theorem c3_allocate_exact_and_zeroed (h : Heap) (amount : Nat) (m : Memory) (h' : Heap)
    (hsz : ∀ b ∈ h.free_list, b.size % BLOCK_SIZE_BYTES = 0)
    (halloc : h.allocate amount = (some m, h')) :
    m.size = ceil_to amount BLOCK_SIZE_BYTES ∧
    (∀ a, m.start ≤ a → a < m.start + m.size → h'.mem a = 0) := by
  obtain ⟨hrec, hzero⟩ := allocate_some_inv h amount m h' halloc
  exact ⟨flAllocate_size _ _ _ _ hsz (ceil_to_mod amount) hrec, hzero⟩

/-- Witness for C3 on a fresh 256-byte heap (RAM previously filled with 37)
and a 20-byte request: the span is the 32 bytes at the pool base and its
middle word reads back zero. -/
theorem c3_allocate_exact_and_zeroed_witness :
    (⟨1024, 32⟩ : Memory).size = ceil_to 20 BLOCK_SIZE_BYTES ∧
    (((Heap.new 1024 256 fun _ => 37).allocate 20).2).mem 1040 = 0 := by
  have h1 : ((Heap.new 1024 256 fun _ => 37).allocate 20).1 = some ⟨1024, 32⟩ := by decide
  have halloc : (Heap.new 1024 256 fun _ => 37).allocate 20
      = (some ⟨1024, 32⟩, ((Heap.new 1024 256 fun _ => 37).allocate 20).2) := by
    rw [← h1]
  have h := c3_allocate_exact_and_zeroed (Heap.new 1024 256 fun _ => 37) 20 ⟨1024, 32⟩
    (((Heap.new 1024 256 fun _ => 37).allocate 20).2) (by decide) halloc
  exact ⟨h.1, h.2 1040 (by decide) (by decide)⟩

/-- Counterexample to C4 as stated: on a fresh 256-byte heap, `allocate(0)`
succeeds, and `set_range` over the resulting empty block range still paints
the head block of the free node it was carved from.  Block 0 (address 1024)
lies inside the still-listed free node `[1024, 1264)` yet now carries `Blue`:
invariant I3 ("every free region is `Check` across all blocks") does not
survive a zero-byte allocation, so the call does not leave *all* heap
invariants intact. -/
theorem c4_counterexample :
    ((Heap.new 1024 256 fun _ => 0).allocate 0).1 = some ⟨1024, 0⟩ ∧
    (((Heap.new 1024 256 fun _ => 0).allocate 0).2).free_list = [⟨1024, 240⟩] ∧
    (((Heap.new 1024 256 fun _ => 0).allocate 0).2).color_map.get 0 = Color.Blue := by
  refine ⟨by decide, by decide, by decide⟩

/-- C4 (amended): `allocate` either succeeds or returns `none` exactly when no
free node is at least the rounded amount; on `none` the whole heap state is
unchanged; the call is atomic, never fatal, and for every amount preserves the
free-list invariants I1/I2 (sorted disjoint nodes with positive block-multiple
sizes).  For every positive amount a success also preserves the color-map
invariants: every free region still reads `Check` across all its blocks (I3),
every map slot outside the returned span's block range is untouched (so I4
survives for every other allocated region), and the returned span itself gets
a head color (`Check` while `MARKING`, else the current color) followed by
`Continue`s (I4 for the new region).  Only a zero-byte allocation can break
I3, as the counterexample shows. -/
theorem c4_allocate_total (h : Heap) (amount : Nat)
    (hstrong : flStrong h.free_list) (hsz : flSizes h.free_list)
    (hwf : mapWf h.color_map) (hpool : poolWf h) (hchk : flChecked h) :
    ((h.allocate amount).1 = none ↔
      ∀ b ∈ h.free_list, b.size < ceil_to amount BLOCK_SIZE_BYTES) ∧
    ((h.allocate amount).1 = none → (h.allocate amount).2 = h) ∧
    (flStrong (h.allocate amount).2.free_list ∧
      flSizes (h.allocate amount).2.free_list) ∧
    (∀ m, 0 < amount → (h.allocate amount).1 = some m →
      flChecked (h.allocate amount).2 ∧
      (∀ j, j < (m.start - h.start) / BLOCK_SIZE_BYTES ∨
          (m.start - h.start) / BLOCK_SIZE_BYTES + m.size / BLOCK_SIZE_BYTES ≤ j →
        (h.allocate amount).2.color_map.get j = h.color_map.get j) ∧
      (h.allocate amount).2.color_map.get ((m.start - h.start) / BLOCK_SIZE_BYTES) =
        (if h.phase = Phase.MARKING then Color.Check else h.current_color) ∧
      (∀ i, 0 < i → i < m.size / BLOCK_SIZE_BYTES →
        (h.allocate amount).2.color_map.get
          ((m.start - h.start) / BLOCK_SIZE_BYTES + i) = Color.Continue)) := by
  refine ⟨?_, allocate_none_inv h amount, ?_, ?_⟩
  · rw [← flAllocate_none_iff]
    unfold Heap.allocate
    cases hrec : flAllocate (ceil_to amount BLOCK_SIZE_BYTES) h.free_list with
    | none => simp
    | some p => obtain ⟨m0, fl⟩ := p; simp
  · cases hcase : (h.allocate amount).1 with
    | none => rw [allocate_none_inv h amount hcase]; exact ⟨hstrong, hsz⟩
    | some m =>
      have halloc : h.allocate amount = (some m, (h.allocate amount).2) := by
        rw [← hcase]
      obtain ⟨hrec, -⟩ := allocate_some_inv h amount m _ halloc
      exact flAllocate_inv _ _ _ _ hstrong hsz (ceil_to_mod amount) hrec
  · intro m hpos hsome
    have halloc : h.allocate amount = (some m, (h.allocate amount).2) := by
      rw [← hsome]
    obtain ⟨hrec, -⟩ := allocate_some_inv h amount m _ halloc
    obtain ⟨hcm, hstz⟩ := allocate_some_map h amount m _ halloc
    obtain ⟨hgeom1, hgeom2, hgeom3⟩ := hpool
    obtain ⟨pre, y, post, hsl, hmy, hmle, hlcase⟩ := flAllocate_split _ _ _ _ hrec
    have hyin : y ∈ h.free_list := by
      rw [hsl]; exact List.mem_append.mpr (Or.inr (List.mem_cons_self y post))
    have hys := hsz y hyin
    have hyg := hgeom3 y hyin
    have hmsize : m.size = ceil_to amount BLOCK_SIZE_BYTES :=
      flAllocate_size _ _ _ _ (fun b hb => (hsz b hb).2) (ceil_to_mod amount) hrec
    have hm16 : BLOCK_SIZE_BYTES ≤ m.size ∧ m.size % BLOCK_SIZE_BYTES = 0 := by
      have h1 := ceil_to_mod amount
      have h2 := ceil_to_pos amount hpos
      rw [hmsize]
      simp only [BLOCK_SIZE_BYTES] at h1 h2 ⊢
      omega
    have hy16 : BLOCK_SIZE_BYTES ≤ y.size := by
      have h1 := hys
      simp only [BLOCK_SIZE_BYTES] at h1 ⊢
      omega
    have hheadChk : h.color_map.get ((y.start - h.start) / BLOCK_SIZE_BYTES) =
        Color.Check := by
      have h0 := hchk y hyin 0 (by simp only [BLOCK_SIZE_BYTES] at hy16 ⊢; omega)
      simpa using h0
    have hbo : h.block_of m.start = (m.start - h.start) / BLOCK_SIZE_BYTES := by
      have hgetChk : h.color_map.get ((m.start - h.start) / BLOCK_SIZE_BYTES) =
          Color.Check := by rw [hmy]; exact hheadChk
      unfold Heap.block_of
      exact walkBack_stop h.color_map _ (by rw [hgetChk]; decide)
    have hrange : h.block_range_of m
        (if h.phase = Phase.MARKING then Color.Check else h.current_color) =
        ⟨(m.start - h.start) / BLOCK_SIZE_BYTES,
          (m.start - h.start) / BLOCK_SIZE_BYTES + m.size / BLOCK_SIZE_BYTES,
          if h.phase = Phase.MARKING then Color.Check else h.current_color⟩ := by
      simp only [Heap.block_range_of]
      rw [hbo]
    have hs0blocks : (m.start - h.start) / BLOCK_SIZE_BYTES +
        m.size / BLOCK_SIZE_BYTES ≤ h.blocks := by
      rw [hmy]
      simp only [BLOCK_SIZE_BYTES, FreeBlock.end_] at hyg hgeom1 hm16 ⊢
      omega
    have hslot : ∀ idx, idx < h.blocks → idx / 4 < h.color_map.bits.length := by
      intro idx hidx
      have h2 := hgeom2
      simp only [ColorMap.len, BLOCKS_PER_COLORMAP_BYTE] at h2
      omega
    have hk1 : 0 < m.size / BLOCK_SIZE_BYTES := by
      simp only [BLOCK_SIZE_BYTES] at hm16 ⊢
      omega
    have hframe : ∀ j, (j < (m.start - h.start) / BLOCK_SIZE_BYTES ∨
        (m.start - h.start) / BLOCK_SIZE_BYTES + m.size / BLOCK_SIZE_BYTES ≤ j) →
        (h.allocate amount).2.color_map.get j = h.color_map.get j := by
      intro j hj
      rw [hcm, hrange]
      exact set_range_get_out h.color_map _ _ _ _ hwf (by omega) hj
    refine ⟨?_, hframe, ?_, ?_⟩
    · intro b hb i hi
      rw [hstz]
      have hstrong' : flStrong (pre ++ y :: post) := by rw [← hsl]; exact hstrong
      obtain ⟨-, hpost2, hcross⟩ := List.pairwise_append.mp hstrong'
      obtain ⟨hyrel, -⟩ := List.pairwise_cons.mp hpost2
      have hoside : ∀ b, b ∈ pre ∨ b ∈ post → ∀ i, i < b.size / BLOCK_SIZE_BYTES →
          (h.allocate amount).2.color_map.get
            ((b.start - h.start) / BLOCK_SIZE_BYTES + i) = Color.Check := by
        intro b hbmem i hi
        have hbold : b ∈ h.free_list := by
          rw [hsl]
          rcases hbmem with h1 | h1
          · exact List.mem_append.mpr (Or.inl h1)
          · exact List.mem_append.mpr (Or.inr (List.mem_cons_of_mem y h1))
        have hold := hchk b hbold i hi
        have hbs := hsz b hbold
        have hbg := hgeom3 b hbold
        have hdisj : ((b.start - h.start) / BLOCK_SIZE_BYTES + i <
              (m.start - h.start) / BLOCK_SIZE_BYTES ∨
            (m.start - h.start) / BLOCK_SIZE_BYTES + m.size / BLOCK_SIZE_BYTES ≤
              (b.start - h.start) / BLOCK_SIZE_BYTES + i) := by
          rw [hmy]
          rcases hbmem with h1 | h1
          · have hby := hcross b h1 y (List.mem_cons_self y post)
            left
            simp only [BLOCK_SIZE_BYTES, FreeBlock.end_] at hby hi hbs hbg hyg ⊢
            omega
          · have hyb := hyrel b h1
            right
            simp only [BLOCK_SIZE_BYTES, FreeBlock.end_] at hyb hi hbs hbg hyg hys hm16 ⊢
            omega
        rw [hframe _ hdisj]
        exact hold
      rcases hlcase with ⟨hms, hfl⟩ | hfl
      · rw [hfl] at hb
        rcases List.mem_append.mp hb with h1 | h1
        · exact hoside b (Or.inl h1) i hi
        · exact hoside b (Or.inr h1) i hi
      · rw [hfl] at hb
        rcases List.mem_append.mp hb with h1 | h1
        · exact hoside b (Or.inl h1) i hi
        · rcases List.mem_cons.mp h1 with rfl | h1
          · show (h.allocate amount).2.color_map.get
                ((y.start + m.size - h.start) / BLOCK_SIZE_BYTES + i) = Color.Check
            have hi' : i < (y.size - m.size) / BLOCK_SIZE_BYTES := hi
            have hkin : m.size / BLOCK_SIZE_BYTES + i < y.size / BLOCK_SIZE_BYTES := by
              simp only [BLOCK_SIZE_BYTES] at hi' hm16 hys ⊢
              omega
            have hold := hchk y hyin (m.size / BLOCK_SIZE_BYTES + i) hkin
            have hidx : (y.start + m.size - h.start) / BLOCK_SIZE_BYTES + i =
                (y.start - h.start) / BLOCK_SIZE_BYTES +
                  (m.size / BLOCK_SIZE_BYTES + i) := by
              simp only [BLOCK_SIZE_BYTES, FreeBlock.end_] at hm16 hyg ⊢
              omega
            rw [hidx]
            have hdisj : ((y.start - h.start) / BLOCK_SIZE_BYTES +
                  (m.size / BLOCK_SIZE_BYTES + i) <
                  (m.start - h.start) / BLOCK_SIZE_BYTES ∨
                (m.start - h.start) / BLOCK_SIZE_BYTES + m.size / BLOCK_SIZE_BYTES ≤
                  (y.start - h.start) / BLOCK_SIZE_BYTES +
                    (m.size / BLOCK_SIZE_BYTES + i)) := by
              rw [hmy]
              omega
            rw [hframe _ hdisj]
            exact hold
          · exact hoside b (Or.inr h1) i hi
    · rw [hcm, hrange]
      exact set_range_get_head h.color_map _ _ _ hwf (hslot _ (by omega))
    · intro i h1 h2
      rw [hcm, hrange]
      exact set_range_get_mid h.color_map _ _ _ _ hwf (by omega) (by omega)
        (hslot _ (by omega))

/-- Witness for C4 on the fresh demonstration heap and a 32-byte request: all
five data-model hypotheses hold by computation, the request succeeds, and the
theorem applies. -/
theorem c4_allocate_total_witness :
    ((demoHeap.allocate 32).1 = none ↔
      ∀ b ∈ demoHeap.free_list, b.size < ceil_to 32 BLOCK_SIZE_BYTES) ∧
    ((demoHeap.allocate 32).1 = none → (demoHeap.allocate 32).2 = demoHeap) ∧
    (flStrong (demoHeap.allocate 32).2.free_list ∧
      flSizes (demoHeap.allocate 32).2.free_list) ∧
    (∀ m, 0 < 32 → (demoHeap.allocate 32).1 = some m →
      flChecked (demoHeap.allocate 32).2 ∧
      (∀ j, j < (m.start - demoHeap.start) / BLOCK_SIZE_BYTES ∨
          (m.start - demoHeap.start) / BLOCK_SIZE_BYTES +
            m.size / BLOCK_SIZE_BYTES ≤ j →
        (demoHeap.allocate 32).2.color_map.get j = demoHeap.color_map.get j) ∧
      (demoHeap.allocate 32).2.color_map.get
          ((m.start - demoHeap.start) / BLOCK_SIZE_BYTES) =
        (if demoHeap.phase = Phase.MARKING then Color.Check
          else demoHeap.current_color) ∧
      (∀ i, 0 < i → i < m.size / BLOCK_SIZE_BYTES →
        (demoHeap.allocate 32).2.color_map.get
          ((m.start - demoHeap.start) / BLOCK_SIZE_BYTES + i) = Color.Continue)) :=
  c4_allocate_total demoHeap 32 (by decide) (by decide) (by decide) (by decide)
    (by decide)

/-! ## The retire-restores-allocate law (C6) -/

/-- Retiring exactly what a successful positive-amount first-fit allocation
returned reconstructs the original free list node for node. -/
theorem flAllocate_flRetire (amount : Nat) (l : List FreeBlock) (m : Memory)
    (l' : List FreeBlock) (hstrong : flStrong l)
    (hsz : ∀ b ∈ l, b.size % BLOCK_SIZE_BYTES = 0) (hpos : 0 < amount)
    (h : flAllocate amount l = some (m, l')) : flRetire m l' = l := by
  induction l generalizing l' with
  | nil => simp [flAllocate] at h
  | cons b rest ih =>
    obtain ⟨hstrong1, hstrong2⟩ := List.pairwise_cons.mp hstrong
    rw [flAllocate] at h
    by_cases hgt : amount > b.size
    · rw [if_pos hgt] at h
      cases hrec : flAllocate amount rest with
      | none => rw [hrec] at h; simp at h
      | some p =>
        obtain ⟨m0, rest0⟩ := p
        rw [hrec, Option.map_some'] at h
        simp only [Option.some.injEq, Prod.mk.injEq] at h
        obtain ⟨hm, hl⟩ := h
        subst hm
        rw [← hl]
        obtain ⟨y, hy, hstart⟩ := flAllocate_start amount rest m0 rest0 hrec
        have hby : b.end_ < y.start := hstrong1 y hy
        have hble : b.start ≤ b.end_ := Nat.le_add_right _ _
        rw [flRetire]
        rw [if_neg (by omega), if_neg (by omega)]
        rw [ih rest0 hstrong2 (fun x hx => hsz x (List.mem_cons_of_mem b hx)) hrec]
    · rw [if_neg hgt] at h
      have hb := hsz b (List.mem_cons_self b rest)
      by_cases hsmall : b.size - amount < FREE_BLOCK_SIZE
      · rw [if_pos hsmall] at h
        simp only [Option.some.injEq, Prod.mk.injEq] at h
        obtain ⟨hm, hl⟩ := h
        subst hm
        rw [← hl]
        cases rest with
        | nil => simp [flRetire]
        | cons r rr =>
          have hbr : b.start + b.size < r.start := hstrong1 r (List.mem_cons_self r rr)
          rw [flRetire, if_pos (show r.start > b.start by omega)]
          rw [checkMergeNext,
            if_neg (show ¬ (⟨b.start, b.size⟩ : FreeBlock).end_ = r.start by
              show ¬ b.start + b.size = r.start
              omega)]
      · rw [if_neg hsmall] at h
        simp only [Option.some.injEq, Prod.mk.injEq] at h
        obtain ⟨hm, hl⟩ := h
        subst hm
        rw [← hl]
        rw [flRetire, if_pos (by simp; omega)]
        rw [checkMergeNext, if_pos (by simp [FreeBlock.end_])]
        have : amount + (b.size - amount) = b.size := by omega
        rw [this]

/-- Counterexample to C6 as stated: `allocate(0)` succeeds on a fresh heap
(returning an empty span at the pool base), but retiring that span does not
restore the free list — the walk falls off the end and appends a zero-sized
node (in the Rust code the appended header would even alias the existing
node's header). -/
theorem c6_counterexample :
    ((Heap.new 1024 256 fun _ => 0).allocate 0).1 = some ⟨1024, 0⟩ ∧
    ((((Heap.new 1024 256 fun _ => 0).allocate 0).2).retire ⟨1024, 0⟩).free_list
      ≠ (Heap.new 1024 256 fun _ => 0).free_list := by
  refine ⟨by decide, by decide⟩

/-- C6 (amended): for every `n ≥ 1` for which `allocate(n)` succeeds,
immediately retiring the returned span restores the free list exactly: the
same sequence of nodes with the same start addresses and sizes. -/
theorem c6_retire_allocate_restores (h : Heap) (n : Nat) (m : Memory) (h' : Heap)
    (hn : 0 < n) (hstrong : flStrong h.free_list)
    (hsz : ∀ b ∈ h.free_list, b.size % BLOCK_SIZE_BYTES = 0)
    (halloc : h.allocate n = (some m, h')) :
    (h'.retire m).free_list = h.free_list := by
  obtain ⟨hrec, -⟩ := allocate_some_inv h n m h' halloc
  show flRetire m h'.free_list = h.free_list
  exact flAllocate_flRetire _ _ _ _ hstrong hsz (ceil_to_pos n hn) hrec

/-- Witness for C6: a fresh 256-byte heap and a 32-byte allocation. -/
theorem c6_retire_allocate_restores_witness :
    ((((Heap.new 1024 256 fun _ => 0).allocate 32).2).retire ⟨1024, 32⟩).free_list
      = (Heap.new 1024 256 fun _ => 0).free_list := by
  have h1 : ((Heap.new 1024 256 fun _ => 0).allocate 32).1 = some ⟨1024, 32⟩ := by decide
  have halloc : (Heap.new 1024 256 fun _ => 0).allocate 32
      = (some ⟨1024, 32⟩, ((Heap.new 1024 256 fun _ => 0).allocate 32).2) := by
    rw [← h1]
  exact c6_retire_allocate_restores (Heap.new 1024 256 fun _ => 0) 32 ⟨1024, 32⟩
    (((Heap.new 1024 256 fun _ => 0).allocate 32).2) (by decide) (by decide) (by decide) halloc

/-! ## `flRetire` preserves the invariants (C5, retire path) -/

/-- Every start address after a retire is the retired span's or one of the
original nodes'. -/
theorem flRetire_mem_start (m : Memory) (l : List FreeBlock) :
    ∀ x ∈ flRetire m l, x.start = m.start ∨ ∃ y ∈ l, x.start = y.start := by
  induction l with
  | nil =>
    intro x hx
    rw [flRetire, List.mem_singleton] at hx
    exact Or.inl (by rw [hx])
  | cons b rest ih =>
    intro x hx
    rw [flRetire] at hx
    by_cases h1 : b.start > m.start
    · rw [if_pos h1] at hx
      rw [checkMergeNext] at hx
      by_cases h2 : (⟨m.start, m.size⟩ : FreeBlock).end_ = b.start
      · rw [if_pos h2] at hx
        rcases List.mem_cons.mp hx with rfl | hx'
        · exact Or.inl rfl
        · exact Or.inr ⟨x, List.mem_cons_of_mem b hx', rfl⟩
      · rw [if_neg h2] at hx
        rcases List.mem_cons.mp hx with rfl | hx'
        · exact Or.inl rfl
        · exact Or.inr ⟨x, hx', rfl⟩
    · rw [if_neg h1] at hx
      by_cases h2 : b.end_ = m.start
      · rw [if_pos h2] at hx
        cases rest with
        | nil =>
          rw [checkMergeNext, List.mem_singleton] at hx
          exact Or.inr ⟨b, List.mem_cons_self b [], by rw [hx]⟩
        | cons r rr =>
          rw [checkMergeNext] at hx
          by_cases h3 : (⟨b.start, b.size + m.size⟩ : FreeBlock).end_ = r.start
          · rw [if_pos h3] at hx
            rcases List.mem_cons.mp hx with rfl | hx'
            · exact Or.inr ⟨b, List.mem_cons_self b _, rfl⟩
            · exact Or.inr ⟨x, List.mem_cons_of_mem b (List.mem_cons_of_mem r hx'), rfl⟩
          · rw [if_neg h3] at hx
            rcases List.mem_cons.mp hx with rfl | hx'
            · exact Or.inr ⟨b, List.mem_cons_self b _, rfl⟩
            · exact Or.inr ⟨x, List.mem_cons_of_mem b hx', rfl⟩
      · rw [if_neg h2] at hx
        rcases List.mem_cons.mp hx with rfl | hx'
        · exact Or.inr ⟨x, List.mem_cons_self x rest, rfl⟩
        · rcases ih x hx' with h | ⟨y, hy, he⟩
          · exact Or.inl h
          · exact Or.inr ⟨y, List.mem_cons_of_mem b hy, he⟩

/-- Retiring a positive span disjoint from every free node preserves the
strong invariant and size positivity. -/
theorem flRetire_strong (m : Memory) (l : List FreeBlock)
    (hstrong : flStrong l) (hpos : ∀ x ∈ l, 0 < x.size) (hm : 0 < m.size)
    (hdisj : ∀ b ∈ l, m.start + m.size ≤ b.start ∨ b.end_ ≤ m.start) :
    flStrong (flRetire m l) ∧ ∀ x ∈ flRetire m l, 0 < x.size := by
  induction l with
  | nil =>
    rw [flRetire]
    exact ⟨List.pairwise_singleton _ _, by
      intro x hx
      rw [List.mem_singleton] at hx
      rw [hx]
      exact hm⟩
  | cons b rest ih =>
    obtain ⟨hstrong1, hstrong2⟩ := List.pairwise_cons.mp hstrong
    have hposr : ∀ x ∈ rest, 0 < x.size := fun x hx => hpos x (List.mem_cons_of_mem b hx)
    rw [flRetire]
    by_cases h1 : b.start > m.start
    · rw [if_pos h1]
      have hmb : m.start + m.size ≤ b.start := by
        rcases hdisj b (List.mem_cons_self b rest) with h | h
        · exact h
        · exact absurd h (by simp only [FreeBlock.end_]; omega)
      rw [checkMergeNext]
      by_cases h2 : (⟨m.start, m.size⟩ : FreeBlock).end_ = b.start
      · rw [if_pos h2]
        have h2' : m.start + m.size = b.start := h2
        constructor
        · refine List.pairwise_cons.mpr ⟨?_, hstrong2⟩
          intro x hx
          have := hstrong1 x hx
          simp only [FreeBlock.end_] at this ⊢
          omega
        · intro x hx
          rcases List.mem_cons.mp hx with rfl | hx'
          · simp only []
            omega
          · exact hposr x hx'
      · rw [if_neg h2]
        have h2' : ¬ m.start + m.size = b.start := h2
        constructor
        · refine List.pairwise_cons.mpr ⟨?_, hstrong⟩
          intro x hx
          rcases List.mem_cons.mp hx with rfl | hx'
          · simp only [FreeBlock.end_]
            omega
          · have := hstrong1 x hx'
            simp only [FreeBlock.end_] at this ⊢
            omega
        · intro x hx
          rcases List.mem_cons.mp hx with rfl | hx'
          · exact hm
          · exact hpos x hx'
    · rw [if_neg h1]
      have hb_le : b.start ≤ m.start := by omega
      by_cases h2 : b.end_ = m.start
      · rw [if_pos h2]
        have h2' : b.start + b.size = m.start := h2
        cases rest with
        | nil =>
          rw [checkMergeNext]
          refine ⟨List.pairwise_singleton _ _, ?_⟩
          intro x hx
          rw [List.mem_singleton] at hx
          rw [hx]
          show 0 < b.size + m.size
          omega
        | cons r rr =>
          have hbr : b.end_ < r.start := hstrong1 r (List.mem_cons_self r rr)
          have hbr' : b.start + b.size < r.start := hbr
          have hmr : m.start + m.size ≤ r.start := by
            rcases hdisj r (List.mem_cons_of_mem b (List.mem_cons_self r rr)) with h | h
            · exact h
            · have h' : r.start + r.size ≤ m.start := h
              omega
          obtain ⟨hs2a, hs2b⟩ := List.pairwise_cons.mp hstrong2
          rw [checkMergeNext]
          by_cases h3 : (⟨b.start, b.size + m.size⟩ : FreeBlock).end_ = r.start
          · rw [if_pos h3]
            have h3' : b.start + (b.size + m.size) = r.start := h3
            constructor
            · refine List.pairwise_cons.mpr ⟨?_, hs2b⟩
              intro x hx
              have := hs2a x hx
              simp only [FreeBlock.end_] at this ⊢
              omega
            · intro x hx
              rcases List.mem_cons.mp hx with rfl | hx'
              · show 0 < b.size + m.size + r.size
                omega
              · exact hposr x (List.mem_cons_of_mem r hx')
          · rw [if_neg h3]
            have h3' : ¬ b.start + (b.size + m.size) = r.start := h3
            constructor
            · refine List.pairwise_cons.mpr ⟨?_, hstrong2⟩
              intro x hx
              rcases List.mem_cons.mp hx with rfl | hx'
              · simp only [FreeBlock.end_]
                omega
              · have hrx := hs2a x hx'
                have hrp := hposr r (List.mem_cons_self r rr)
                simp only [FreeBlock.end_] at hrx ⊢
                omega
            · intro x hx
              rcases List.mem_cons.mp hx with rfl | hx'
              · show 0 < b.size + m.size
                omega
              · exact hposr x hx'
      · rw [if_neg h2]
        have hbm : b.end_ < m.start := by
          rcases hdisj b (List.mem_cons_self b rest) with h | h
          · simp only [FreeBlock.end_] at h2 ⊢
            omega
          · simp only [FreeBlock.end_] at h h2 ⊢
            omega
        obtain ⟨ihs, ihp⟩ := ih hstrong2 hposr
          (fun x hx => hdisj x (List.mem_cons_of_mem b hx))
        constructor
        · refine List.pairwise_cons.mpr ⟨?_, ihs⟩
          intro x hx
          rcases flRetire_mem_start m rest x hx with he | ⟨y, hy, he⟩
          · rw [he]; exact hbm
          · rw [he]; exact hstrong1 y hy
        · intro x hx
          rcases List.mem_cons.mp hx with rfl | hx'
          · exact hpos x (List.mem_cons_self x rest)
          · exact ihp x hx'

/-! ## The sweep co-iteration preserves I1 and I2 (C5, sweep path) -/

/-- One positional `FreeListSpan::insert` keeps the two cursor halves of the
free list sorted, non-touching, and positive, provided the nodes already
passed start before the inserted span and the next free node starts after
it.  (`rdone` is in reverse order, so its chain runs in `flip flRel`.) -/
theorem spanInsert_inv (rdone pend : List FreeBlock) (m : Memory)
    (rdone' pend' : List FreeBlock)
    (h : Heap.spanInsert rdone pend m = some (rdone', pend'))
    (hm : 0 < m.size)
    (hrd : List.Chain' (flip flRel) rdone)
    (hpd : List.Chain' flRel pend)
    (hseam : ∀ x ∈ rdone.head?, ∀ y ∈ pend.head?, flRel x y)
    (hrpos : ∀ x ∈ rdone, 0 < x.size) (hppos : ∀ x ∈ pend, 0 < x.size)
    (hbound : ∀ x ∈ rdone, x.start < m.start)
    (hpb : ∀ y ∈ pend.head?, m.start < y.start) :
    List.Chain' (flip flRel) rdone' ∧ List.Chain' flRel pend' ∧
    (∀ x ∈ rdone'.head?, ∀ y ∈ pend'.head?, flRel x y) ∧
    (∀ x ∈ rdone', 0 < x.size) ∧ (∀ x ∈ pend', 0 < x.size) ∧
    (∀ x ∈ rdone', x.start < m.start + m.size) := by
  cases rdone with
  | cons last rest =>
    obtain ⟨hrd1, hrd2⟩ := List.chain'_cons'.mp hrd
    have hlast_b : last.start < m.start := hbound last (List.mem_cons_self last rest)
    rw [Heap.spanInsert.eq_def] at h
    dsimp only at h
    by_cases h1 : last.end_ = m.start
    · rw [if_pos h1] at h
      have h1' : last.start + last.size = m.start := h1
      cases pend with
      | cons head tail =>
        dsimp only at h
        have hhead_b : m.start < head.start := hpb head rfl
        have hhp : 0 < head.size := hppos head (List.mem_cons_self head tail)
        obtain ⟨hpd1, hpd2⟩ := List.chain'_cons'.mp hpd
        by_cases h2 : (⟨last.start, last.size + m.size⟩ : FreeBlock).end_ = head.start
        · rw [if_pos h2] at h
          have h2' : last.start + (last.size + m.size) = head.start := h2
          simp only [Option.some.injEq, Prod.mk.injEq] at h
          obtain ⟨hd, hp⟩ := h
          subst hd
          subst hp
          refine ⟨?_, hpd2, ?_, ?_, ?_, ?_⟩
          · refine List.chain'_cons'.mpr ⟨?_, hrd2⟩
            intro y hy
            have hxy := hrd1 y hy
            exact ⟨hxy.1, hxy.2⟩
          · intro x hx y hy
            simp only [List.head?_cons, Option.mem_def, Option.some.injEq] at hx
            subst hx
            have hxy := hpd1 y hy
            have hxy1 : head.start < y.start := hxy.1
            have hxy2 : ¬ head.start + head.size = y.start := hxy.2
            exact ⟨show last.start < y.start by omega,
              show ¬ last.start + (last.size + m.size + head.size) = y.start by omega⟩
          · intro x hx
            rcases List.mem_cons.mp hx with rfl | hx'
            · exact (show 0 < last.size + m.size + head.size by omega)
            · exact hrpos x (List.mem_cons_of_mem last hx')
          · intro x hx
            exact hppos x (List.mem_cons_of_mem head hx)
          · intro x hx
            rcases List.mem_cons.mp hx with rfl | hx'
            · exact (show last.start < m.start + m.size by omega)
            · have := hbound x (List.mem_cons_of_mem last hx')
              omega
        · rw [if_neg h2] at h
          have h2' : ¬ last.start + (last.size + m.size) = head.start := h2
          simp only [Option.some.injEq, Prod.mk.injEq] at h
          obtain ⟨hd, hp⟩ := h
          subst hd
          subst hp
          refine ⟨?_, hpd, ?_, ?_, hppos, ?_⟩
          · refine List.chain'_cons'.mpr ⟨?_, hrd2⟩
            intro y hy
            have hxy := hrd1 y hy
            exact ⟨hxy.1, hxy.2⟩
          · intro x hx y hy
            simp only [List.head?_cons, Option.mem_def, Option.some.injEq] at hx hy
            subst hx
            subst hy
            exact ⟨show last.start < head.start by omega,
              show ¬ last.start + (last.size + m.size) = head.start by omega⟩
          · intro x hx
            rcases List.mem_cons.mp hx with rfl | hx'
            · exact (show 0 < last.size + m.size by omega)
            · exact hrpos x (List.mem_cons_of_mem last hx')
          · intro x hx
            rcases List.mem_cons.mp hx with rfl | hx'
            · exact (show last.start < m.start + m.size by omega)
            · have := hbound x (List.mem_cons_of_mem last hx')
              omega
      | nil =>
        dsimp only at h
        simp only [Option.some.injEq, Prod.mk.injEq] at h
        obtain ⟨hd, hp⟩ := h
        subst hd
        subst hp
        refine ⟨?_, List.chain'_nil, by simp, ?_, by simp, ?_⟩
        · refine List.chain'_cons'.mpr ⟨?_, hrd2⟩
          intro y hy
          have hxy := hrd1 y hy
          exact ⟨hxy.1, hxy.2⟩
        · intro x hx
          rcases List.mem_cons.mp hx with rfl | hx'
          · exact (show 0 < last.size + m.size by omega)
          · exact hrpos x (List.mem_cons_of_mem last hx')
        · intro x hx
          rcases List.mem_cons.mp hx with rfl | hx'
          · exact (show last.start < m.start + m.size by omega)
          · have := hbound x (List.mem_cons_of_mem last hx')
            omega
    · rw [if_neg h1] at h
      have h1' : ¬ last.start + last.size = m.start := h1
      cases pend with
      | nil => dsimp only at h; exact absurd h (by simp)
      | cons head tail =>
        dsimp only at h
        have hhead_b : m.start < head.start := hpb head rfl
        have hhp : 0 < head.size := hppos head (List.mem_cons_self head tail)
        obtain ⟨hpd1, hpd2⟩ := List.chain'_cons'.mp hpd
        rw [if_pos (show head.start > m.start from hhead_b)] at h
        simp only [Option.some.injEq, Prod.mk.injEq] at h
        obtain ⟨hd, hp⟩ := h
        subst hd
        rw [checkMergeNext] at hp
        have hlm := hseam last rfl head rfl
        have hlm2 : ¬ last.start + last.size = head.start := hlm.2
        by_cases h2 : (⟨m.start, m.size⟩ : FreeBlock).end_ = head.start
        · rw [if_pos h2] at hp
          subst hp
          have h2' : m.start + m.size = head.start := h2
          refine ⟨hrd, ?_, ?_, hrpos, ?_, ?_⟩
          · refine List.chain'_cons'.mpr ⟨?_, hpd2⟩
            intro y hy
            have hxy := hpd1 y hy
            have hxy1 : head.start < y.start := hxy.1
            have hxy2 : ¬ head.start + head.size = y.start := hxy.2
            exact ⟨show m.start < y.start by omega,
              show ¬ m.start + (m.size + head.size) = y.start by omega⟩
          · intro x hx y hy
            simp only [List.head?_cons, Option.mem_def, Option.some.injEq] at hx hy
            subst hx
            subst hy
            exact ⟨hlast_b, h1'⟩
          · intro x hx
            rcases List.mem_cons.mp hx with rfl | hx'
            · exact (show 0 < m.size + head.size by omega)
            · exact hppos x (List.mem_cons_of_mem head hx')
          · intro x hx
            have := hbound x hx
            omega
        · rw [if_neg h2] at hp
          subst hp
          have h2' : ¬ m.start + m.size = head.start := h2
          refine ⟨hrd, ?_, ?_, hrpos, ?_, ?_⟩
          · refine List.chain'_cons'.mpr ⟨?_, hpd⟩
            intro y hy
            simp only [List.head?_cons, Option.mem_def, Option.some.injEq] at hy
            subst hy
            exact ⟨hhead_b, h2'⟩
          · intro x hx y hy
            simp only [List.head?_cons, Option.mem_def, Option.some.injEq] at hx hy
            subst hx
            subst hy
            exact ⟨hlast_b, h1'⟩
          · intro x hx
            rcases List.mem_cons.mp hx with rfl | hx'
            · exact hm
            · exact hppos x hx'
          · intro x hx
            have := hbound x hx
            omega
  | nil =>
    rw [Heap.spanInsert.eq_def] at h
    dsimp only at h
    cases pend with
    | nil =>
      dsimp only at h
      simp only [Option.some.injEq, Prod.mk.injEq] at h
      obtain ⟨hd, hp⟩ := h
      subst hd
      subst hp
      refine ⟨List.chain'_nil, List.chain'_singleton _, by simp, by simp, ?_, by simp⟩
      intro x hx
      rw [List.mem_singleton] at hx
      subst hx
      exact hm
    | cons head tail =>
      dsimp only at h
      have hhead_b : m.start < head.start := hpb head rfl
      have hhp : 0 < head.size := hppos head (List.mem_cons_self head tail)
      obtain ⟨hpd1, hpd2⟩ := List.chain'_cons'.mp hpd
      rw [if_neg (show ¬ head.end_ = m.start by
        show ¬ head.start + head.size = m.start
        omega)] at h
      rw [if_pos (show head.start > m.start from hhead_b)] at h
      simp only [Option.some.injEq, Prod.mk.injEq] at h
      obtain ⟨hd, hp⟩ := h
      subst hd
      rw [checkMergeNext] at hp
      by_cases h2 : (⟨m.start, m.size⟩ : FreeBlock).end_ = head.start
      · rw [if_pos h2] at hp
        subst hp
        have h2' : m.start + m.size = head.start := h2
        refine ⟨List.chain'_nil, ?_, by simp, by simp, ?_, by simp⟩
        · refine List.chain'_cons'.mpr ⟨?_, hpd2⟩
          intro y hy
          have hxy := hpd1 y hy
          have hxy1 : head.start < y.start := hxy.1
          have hxy2 : ¬ head.start + head.size = y.start := hxy.2
          exact ⟨show m.start < y.start by omega,
            show ¬ m.start + (m.size + head.size) = y.start by omega⟩
        · intro x hx
          rcases List.mem_cons.mp hx with rfl | hx'
          · exact (show 0 < m.size + head.size by omega)
          · exact hppos x (List.mem_cons_of_mem head hx')
      · rw [if_neg h2] at hp
        subst hp
        have h2' : ¬ m.start + m.size = head.start := h2
        refine ⟨List.chain'_nil, ?_, by simp, by simp, ?_, by simp⟩
        · refine List.chain'_cons'.mpr ⟨?_, hpd⟩
          intro y hy
          simp only [List.head?_cons, Option.mem_def, Option.some.injEq] at hy
          subst hy
          exact ⟨hhead_b, h2'⟩
        · intro x hx
          rcases List.mem_cons.mp hx with rfl | hx'
          · exact hm
          · exact hppos x hx'

/-- Recompose the cursor halves into the full free list's chain. -/
theorem chain_recompose (rdone pend : List FreeBlock)
    (hrd : List.Chain' (flip flRel) rdone) (hpd : List.Chain' flRel pend)
    (hseam : ∀ x ∈ rdone.head?, ∀ y ∈ pend.head?, flRel x y) :
    List.Chain' flRel (rdone.reverse ++ pend) := by
  rw [List.chain'_append]
  refine ⟨?_, hpd, ?_⟩
  · rw [List.chain'_reverse]
    exact hrd
  · intro x hx y hy
    rw [List.getLast?_reverse] at hx
    exact hseam x hx y hy

/-- The sweep co-iteration keeps the free list sorted, non-touching, and
positive whenever it completes, whatever the color map says. -/
theorem sweepWalk_inv (condemned : Color) :
    ∀ (fuel : Nat) (h : Heap) (current : Nat) (rdone pend out : List FreeBlock),
    Heap.sweepWalk condemned fuel h current rdone pend = some out →
    List.Chain' (flip flRel) rdone → List.Chain' flRel pend →
    (∀ x ∈ rdone.head?, ∀ y ∈ pend.head?, flRel x y) →
    (∀ x ∈ rdone, 0 < x.size) → (∀ x ∈ pend, 0 < x.size) →
    (∀ x ∈ rdone, x.start < current) →
    flLit out ∧ ∀ x ∈ out, 0 < x.size := by
  intro fuel
  induction fuel with
  | zero =>
    intro h current rdone pend out hw
    rw [Heap.sweepWalk.eq_def] at hw
    exact absurd hw (by simp)
  | succ fuel ih =>
    intro h current rdone pend out hw hrd hpd hseam hrpos hppos hbound
    rw [Heap.sweepWalk.eq_def] at hw
    dsimp only at hw
    by_cases hge : current ≥ h.end_
    · rw [if_pos hge] at hw
      simp only [Option.some.injEq] at hw
      subst hw
      refine ⟨chain_recompose rdone pend hrd hpd hseam, ?_⟩
      intro x hx
      rcases List.mem_append.mp hx with hx' | hx'
      · exact hrpos x (List.mem_reverse.mp hx')
      · exact hppos x hx'
    · rw [if_neg hge] at hw
      cases pend with
      | cons n rest =>
        dsimp only at hw
        obtain ⟨hpd1, hpd2⟩ := List.chain'_cons'.mp hpd
        have hnpos : 0 < n.size := hppos n (List.mem_cons_self n rest)
        by_cases hlt : n.start < current
        · rw [if_pos hlt] at hw
          refine ih h current (n :: rdone) rest out hw ?_ hpd2 ?_ ?_ ?_ ?_
          · refine List.chain'_cons'.mpr ⟨?_, hrd⟩
            intro y hy
            exact hseam y hy n rfl
          · intro x hx y hy
            simp only [List.head?_cons, Option.mem_def, Option.some.injEq] at hx
            subst hx
            exact hpd1 y hy
          · intro x hx
            rcases List.mem_cons.mp hx with rfl | hx'
            · exact hnpos
            · exact hrpos x hx'
          · exact fun x hx => hppos x (List.mem_cons_of_mem n hx)
          · intro x hx
            rcases List.mem_cons.mp hx with rfl | hx'
            · exact hlt
            · exact hbound x hx'
        · rw [if_neg hlt] at hw
          by_cases heq : n.start = current
          · rw [if_pos heq] at hw
            refine ih h n.end_ (n :: rdone) rest out hw ?_ hpd2 ?_ ?_ ?_ ?_
            · refine List.chain'_cons'.mpr ⟨?_, hrd⟩
              intro y hy
              exact hseam y hy n rfl
            · intro x hx y hy
              simp only [List.head?_cons, Option.mem_def, Option.some.injEq] at hx
              subst hx
              exact hpd1 y hy
            · intro x hx
              rcases List.mem_cons.mp hx with rfl | hx'
              · exact hnpos
              · exact hrpos x hx'
            · exact fun x hx => hppos x (List.mem_cons_of_mem n hx)
            · intro x hx
              rcases List.mem_cons.mp hx with rfl | hx'
              · show x.start < x.start + x.size
                omega
              · have := hbound x hx'
                show x.start < n.start + n.size
                omega
          · rw [if_neg heq] at hw
            by_cases hec : h.address_of (h.get_range current).end_ ≤ current
            · rw [if_pos hec] at hw
              exact absurd hw (by simp)
            · rw [if_neg hec] at hw
              have he : current < h.address_of (h.get_range current).end_ := by omega
              by_cases hcol : (h.get_range current).color = condemned
              · rw [if_pos hcol] at hw
                cases hins : Heap.spanInsert rdone (n :: rest)
                    ⟨current, h.address_of (h.get_range current).end_ - current⟩ with
                | none => rw [hins] at hw; exact absurd hw (by simp)
                | some q =>
                  obtain ⟨rdone', pend'⟩ := q
                  rw [hins] at hw
                  obtain ⟨hird, hipd, hiseam, hirpos, hippos, hibound⟩ :=
                    spanInsert_inv rdone (n :: rest) _ rdone' pend' hins
                      (by show 0 < h.address_of (h.get_range current).end_ - current; omega)
                      hrd hpd hseam hrpos hppos hbound
                      (by
                        intro y hy
                        simp only [List.head?_cons, Option.mem_def, Option.some.injEq] at hy
                        subst hy
                        show current < n.start
                        omega)
                  refine ih h (h.address_of (h.get_range current).end_) rdone' pend' out hw
                    hird hipd hiseam hirpos hippos ?_
                  intro x hx
                  have hxx : x.start <
                      current + (h.address_of (h.get_range current).end_ - current) :=
                    hibound x hx
                  omega
              · rw [if_neg hcol] at hw
                refine ih h (h.address_of (h.get_range current).end_) rdone (n :: rest) out hw
                  hrd hpd hseam hrpos hppos ?_
                intro x hx
                have := hbound x hx
                omega
      | nil =>
        by_cases hec : h.address_of (h.get_range current).end_ ≤ current
        · rw [if_pos hec] at hw
          exact absurd hw (by simp)
        · rw [if_neg hec] at hw
          have he : current < h.address_of (h.get_range current).end_ := by omega
          by_cases hcol : (h.get_range current).color = condemned
          · rw [if_pos hcol] at hw
            cases hins : Heap.spanInsert rdone []
                ⟨current, h.address_of (h.get_range current).end_ - current⟩ with
            | none => rw [hins] at hw; exact absurd hw (by simp)
            | some q =>
              obtain ⟨rdone', pend'⟩ := q
              rw [hins] at hw
              obtain ⟨hird, hipd, hiseam, hirpos, hippos, hibound⟩ :=
                spanInsert_inv rdone [] _ rdone' pend' hins
                  (by show 0 < h.address_of (h.get_range current).end_ - current; omega)
                  hrd hpd hseam hrpos hppos hbound (by simp)
              refine ih h (h.address_of (h.get_range current).end_) rdone' pend' out hw
                hird hipd hiseam hirpos hippos ?_
              intro x hx
              have hxx : x.start <
                  current + (h.address_of (h.get_range current).end_ - current) :=
                hibound x hx
              omega
          · rw [if_neg hcol] at hw
            refine ih h (h.address_of (h.get_range current).end_) rdone [] out hw
              hrd hpd hseam hrpos hppos ?_
            intro x hx
            have := hbound x hx
            omega

/-- C5: after every public free-list-touching heap operation — construction,
`allocate` (successful or failed), `retire` of a valid span, and a completing
`sweep` — the free list is sorted by strictly ascending address (I1) and no
two adjacent nodes share a boundary (I2): every insertion that would create
touching regions coalesces them. -/
theorem c5_free_list_sorted_coalesced (h : Heap) (amount : Nat) (m : Memory)
    (base len : Nat) (mem0 : Nat → Nat)
    (hstrong : flStrong h.free_list) (hpos : ∀ b ∈ h.free_list, 0 < b.size)
    (hsz : ∀ b ∈ h.free_list, b.size % BLOCK_SIZE_BYTES = 0)
    (hm : 0 < m.size)
    (hdisj : ∀ b ∈ h.free_list, m.start + m.size ≤ b.start ∨ b.end_ ≤ m.start) :
    (flSorted (Heap.new base len mem0).free_list ∧
      flNoTouch (Heap.new base len mem0).free_list) ∧
    (flSorted ((h.allocate amount).2).free_list ∧
      flNoTouch ((h.allocate amount).2).free_list) ∧
    (flSorted (h.retire m).free_list ∧ flNoTouch (h.retire m).free_list) ∧
    (∀ h', h.sweep = some h' → flSorted h'.free_list ∧ flNoTouch h'.free_list) := by
  refine ⟨⟨List.chain'_singleton _, List.chain'_singleton _⟩, ?_, ?_, ?_⟩
  · cases hcase : (h.allocate amount).1 with
    | none =>
      rw [allocate_none_inv h amount hcase]
      have hl := flStrong_flLit _ hstrong
      exact ⟨flLit_flSorted _ hl, flLit_flNoTouch _ hl⟩
    | some m0 =>
      have halloc : h.allocate amount = (some m0, (h.allocate amount).2) := by
        rw [← hcase]
      obtain ⟨hrec, -⟩ := allocate_some_inv h amount m0 _ halloc
      obtain ⟨hs, -⟩ := flAllocate_inv _ _ _ _ hstrong
        (fun b hb => ⟨hpos b hb, hsz b hb⟩) (ceil_to_mod amount) hrec
      have hl := flStrong_flLit _ hs
      exact ⟨flLit_flSorted _ hl, flLit_flNoTouch _ hl⟩
  · obtain ⟨hs, -⟩ := flRetire_strong m h.free_list hstrong hpos hm hdisj
    have hl := flStrong_flLit _ hs
    exact ⟨flLit_flSorted _ hl, flLit_flNoTouch _ hl⟩
  · intro h' hsw
    unfold Heap.sweep at hsw
    by_cases hph : h.phase ≠ Phase.MARKED
    · rw [if_pos hph] at hsw
      exact absurd hsw (by simp)
    · rw [if_neg hph] at hsw
      cases hwalk : Heap.sweepWalk h.current_color.opposite
          (2 * h.end_ + h.free_list.length + 2) h h.start [] h.free_list with
      | none => rw [hwalk] at hsw; exact absurd hsw (by simp)
      | some fl =>
        rw [hwalk, Option.map_some'] at hsw
        simp only [Option.some.injEq] at hsw
        obtain ⟨hlit, -⟩ := sweepWalk_inv h.current_color.opposite _ h h.start [] h.free_list
          fl hwalk List.chain'_nil (flStrong_flLit _ hstrong) (by simp) (by simp) hpos
          (by simp)
        rw [← hsw]
        exact ⟨flLit_flSorted _ hlit, flLit_flNoTouch _ hlit⟩

/-- Witness for C5: the `MARKED` demonstration heap, a 32-byte request, and
retiring the span `[1024, 1040)` carved out of the pool base. -/
theorem c5_free_list_sorted_coalesced_witness :
    ((flSorted (Heap.new 1024 256 zmem).free_list ∧
      flNoTouch (Heap.new 1024 256 zmem).free_list) ∧
    (flSorted ((demoMarked.allocate 32).2).free_list ∧
      flNoTouch ((demoMarked.allocate 32).2).free_list) ∧
    (flSorted (demoMarked.retire ⟨1024, 16⟩).free_list ∧
      flNoTouch (demoMarked.retire ⟨1024, 16⟩).free_list)) ∧
    (flSorted ((demoMarked.sweep.getD demoMarked).free_list) ∧
      flNoTouch ((demoMarked.sweep.getD demoMarked).free_list)) := by
  have h := c5_free_list_sorted_coalesced demoMarked 32 ⟨1024, 16⟩ 1024 256 zmem
    (by decide) (by decide) (by decide) (by decide) (by decide)
  exact ⟨⟨h.1, h.2.1, h.2.2.1⟩, h.2.2.2 (demoMarked.sweep.getD demoMarked) rfl⟩

/-! ## Mark-phase termination machinery (C7) -/

theorem countP_le_of_imp (l : List Nat) (p q : Nat → Bool)
    (himp : ∀ a ∈ l, q a = true → p a = true) : l.countP q ≤ l.countP p := by
  induction l with
  | nil => simp
  | cons a t ih =>
    rw [List.countP_cons, List.countP_cons]
    have ht := ih fun x hx => himp x (List.mem_cons_of_mem a hx)
    by_cases hq : q a = true
    · rw [himp a (List.mem_cons_self a t) hq, hq]
      simp only [if_true]
      omega
    · rw [(by simpa using hq : q a = false)]
      by_cases hp : p a = true <;>
        [rw [hp]; rw [(by simpa using hp : p a = false)]] <;> simp <;> omega

theorem countP_lt_of_imp (l : List Nat) (p q : Nat → Bool)
    (himp : ∀ a ∈ l, q a = true → p a = true)
    (a : Nat) (ha : a ∈ l) (hp : p a = true) (hq : q a = false) :
    l.countP q < l.countP p := by
  induction l with
  | nil => simp at ha
  | cons b t ih =>
    rw [List.countP_cons, List.countP_cons]
    rcases List.mem_cons.mp ha with rfl | ha'
    · rw [hp, hq]
      have := countP_le_of_imp t p q fun x hx => himp x (List.mem_cons_of_mem a hx)
      simp
      omega
    · have ht := ih (fun x hx => himp x (List.mem_cons_of_mem b hx)) ha'
      by_cases hqb : q b = true
      · rw [himp b (List.mem_cons_self b t) hqb, hqb]
        simp only [if_true]
        omega
      · rw [(by simpa using hqb : q b = false)]
        by_cases hpb : p b = true <;>
          [rw [hpb]; rw [(by simpa using hpb : p b = false)]] <;> simp <;> omega

theorem getD_oob (l : List Nat) (i : Nat) (h : l.length ≤ i) : l.getD i 0 = 0 := by
  induction l generalizing i with
  | nil => simp
  | cons a t ih =>
    cases i with
    | zero => simp at h
    | succ j => simpa using ih j (by simpa using h)

/-- Writing out of bounds is a no-op on the packed map. -/
theorem set_oob_map (cm : ColorMap) (b : Nat) (c : Color)
    (hb : cm.bits.length ≤ b / 4) : cm.set b c = cm := by
  unfold ColorMap.set
  dsimp only
  rw [set_oob cm.bits (b / 4) _ hb]

/-- Reading out of bounds yields `Continue` (the default byte is 0). -/
theorem get_oob (cm : ColorMap) (b : Nat) (hb : cm.bits.length ≤ b / 4) :
    cm.get b = Color.Continue := by
  unfold ColorMap.get
  dsimp only
  rw [getD_oob cm.bits (b / 4) hb, Nat.zero_and, Nat.zero_shiftRight]
  rfl

/-- Writing any non-condemned color anywhere never increases the number of
condemned blocks. -/
theorem count_set_le (cm : ColorMap) (blocks : Nat) (cond : Color) (b : Nat) (c : Color)
    (hc : c ≠ cond) (hwf : mapWf cm) :
    (List.range blocks).countP (fun i => (cm.set b c).get i = cond) ≤
      (List.range blocks).countP (fun i => cm.get i = cond) := by
  refine countP_le_of_imp _ _ _ ?_
  intro i _ hq
  simp only [decide_eq_true_eq] at hq ⊢
  by_cases hib : i = b
  · subst hib
    by_cases hlen : cm.bits.length ≤ i / 4
    · rw [set_oob_map cm i c hlen] at hq
      exact hq
    · rw [ColorMap.get_set_same cm i c (by omega) hwf] at hq
      exact absurd hq hc
  · rw [ColorMap.get_set_other cm b i c (fun he => hib he.symm) hwf] at hq
    exact hq

/-- Graying a condemned in-range block strictly decreases the number of
condemned blocks (the promotion `condemned → Check` of `Heap::check`). -/
theorem count_set_promote (cm : ColorMap) (blocks : Nat) (cond : Color) (b : Nat)
    (hb : b < blocks) (hcond : cm.get b = cond)
    (hlive : cond = Color.Blue ∨ cond = Color.Green) (hwf : mapWf cm) :
    (List.range blocks).countP (fun i => (cm.set b Color.Check).get i = cond) <
      (List.range blocks).countP (fun i => cm.get i = cond) := by
  have hinb : ¬ cm.bits.length ≤ b / 4 := by
    intro hlen
    rw [get_oob cm b hlen] at hcond
    rcases hlive with h | h <;> rw [h] at hcond <;> exact absurd hcond (by decide)
  refine countP_lt_of_imp _ _ _ ?_ b (List.mem_range.mpr hb) ?_ ?_
  · intro i _ hq
    simp only [decide_eq_true_eq] at hq ⊢
    by_cases hib : i = b
    · subst hib
      rw [ColorMap.get_set_same cm i Color.Check (by omega) hwf] at hq
      rcases hlive with h | h <;> rw [h] at hq <;> exact absurd hq (by decide)
    · rw [ColorMap.get_set_other cm b i Color.Check (fun he => hib he.symm) hwf] at hq
      exact hq
  · simp only [decide_eq_true_eq]
    exact hcond
  · simp only [decide_eq_false_iff_not, decide_eq_true_eq]
    rw [ColorMap.get_set_same cm b Color.Check (by omega) hwf]
    rcases hlive with h | h <;> rw [h] <;> decide

theorem walkBack_le (cm : ColorMap) (b : Nat) : Heap.walkBack cm b ≤ b := by
  induction b with
  | zero => exact le_refl 0
  | succ k ih =>
    rw [Heap.walkBack]
    by_cases hc : cm.get (k + 1) = Color.Continue
    · rw [if_pos hc]
      omega
    · rw [if_neg hc]

theorem gcFrame_refl (h : Heap) : gcFrame h h := ⟨rfl, rfl, rfl, rfl, rfl⟩

theorem gcFrame_trans (h h' h'' : Heap) (a : gcFrame h h') (b : gcFrame h' h'') :
    gcFrame h h'' :=
  ⟨b.1.trans a.1, b.2.1.trans a.2.1, b.2.2.1.trans a.2.2.1,
   b.2.2.2.1.trans a.2.2.2.1, b.2.2.2.2.trans a.2.2.2.2⟩

/-- `Heap::check` only promotes: the state invariant survives, the GC frame
fields are untouched, the condemned count never grows, and a newly non-empty
envelope certifies a strict promotion. -/
theorem check_spec (h : Heap) (p : Nat) (hinv : Hinv h) :
    Hinv (h.check p) ∧ gcFrame h (h.check p) ∧
    (h.check p).condemnedCount ≤ h.condemnedCount ∧
    ((h.check p).check_start.isSome = true → h.check_start.isSome = true ∨
      (h.check p).condemnedCount < h.condemnedCount) := by
  obtain ⟨hwf, hlive, hgeom, henv⟩ := hinv
  unfold Heap.check
  by_cases hb : h.is_block p
  · rw [if_pos hb]
    by_cases hc : h.color_map.get (h.block_of p) = h.current_color.opposite
    · rw [if_pos hc]
      have hb' : (h.start ≤ p ∧ p < h.end_) ∧ p % WORD_SIZE = 0 := by
        simpa [Heap.is_block] using hb
      obtain ⟨⟨hb1, hb2⟩, -⟩ := hb'
      have hblt : h.block_of p < h.blocks := by
        have hwb := walkBack_le h.color_map ((p - h.start) / BLOCK_SIZE_BYTES)
        have hdiv : (p - h.start) / BLOCK_SIZE_BYTES < h.blocks := by
          rw [Nat.div_lt_iff_lt_mul (by decide : 0 < BLOCK_SIZE_BYTES)]
          omega
        exact Nat.lt_of_le_of_lt hwb hdiv
      have hopp : h.current_color.opposite = Color.Blue ∨
          h.current_color.opposite = Color.Green := by
        rcases hlive with hl | hl <;> rw [hl] <;> [right; left] <;> rfl
      have hcnt := count_set_promote h.color_map h.blocks (h.current_color.opposite)
        (h.block_of p) hblt hc hopp hwf
      refine ⟨⟨set_mapWf _ _ _ hwf, hlive, hgeom, rfl⟩, ⟨rfl, rfl, rfl, rfl, rfl⟩,
        le_of_lt hcnt, fun _ => Or.inr hcnt⟩
    · rw [if_neg hc]
      exact ⟨⟨hwf, hlive, hgeom, henv⟩, gcFrame_refl h, le_refl _, fun hs => Or.inl hs⟩
  · rw [if_neg hb]
    exact ⟨⟨hwf, hlive, hgeom, henv⟩, gcFrame_refl h, le_refl _, fun hs => Or.inl hs⟩

/-- The conservative word scan of one run: a fold of `check`. -/
theorem scanWords_spec : ∀ (fuel : Nat) (h : Heap) (p e : Nat), Hinv h →
    Hinv (Heap.scanWords fuel h p e) ∧ gcFrame h (Heap.scanWords fuel h p e) ∧
    (Heap.scanWords fuel h p e).condemnedCount ≤ h.condemnedCount ∧
    ((Heap.scanWords fuel h p e).check_start.isSome = true →
      h.check_start.isSome = true ∨
      (Heap.scanWords fuel h p e).condemnedCount < h.condemnedCount) := by
  intro fuel
  induction fuel with
  | zero =>
    intro h p e hinv
    rw [Heap.scanWords]
    exact ⟨hinv, gcFrame_refl h, le_refl _, fun hs => Or.inl hs⟩
  | succ fuel ih =>
    intro h p e hinv
    rw [Heap.scanWords]
    by_cases hpe : p < e
    · rw [if_pos hpe]
      obtain ⟨hci, hcf, hcc, hcs⟩ := check_spec h (h.mem p) hinv
      obtain ⟨si, sf, sc, ss⟩ := ih (h.check (h.mem p)) (p + WORD_SIZE) e hci
      refine ⟨si, gcFrame_trans _ _ _ hcf sf, le_trans sc hcc, ?_⟩
      intro hs
      rcases ss hs with h1 | h1
      · rcases hcs h1 with h2 | h2
        · exact Or.inl h2
        · exact Or.inr (Nat.lt_of_le_of_lt sc h2)
      · exact Or.inr (Nat.lt_of_lt_of_le h1 hcc)
    · rw [if_neg hpe]
      exact ⟨hinv, gcFrame_refl h, le_refl _, fun hs => Or.inl hs⟩

/-- Repainting a block with the current color (the mark walk's per-run
repaint) never condemns anything. -/
theorem condemnedCount_repaint (h : Heap) (b : Nat) (hwf : mapWf h.color_map)
    (hlive : h.current_color = Color.Blue ∨ h.current_color = Color.Green) :
    ({ h with color_map := h.color_map.set b h.current_color } : Heap).condemnedCount ≤
      h.condemnedCount := by
  show (List.range h.blocks).countP _ ≤ (List.range h.blocks).countP _
  refine count_set_le h.color_map h.blocks h.current_color.opposite b h.current_color ?_ hwf
  rcases hlive with hl | hl <;> rw [hl] <;> decide

/-- The envelope walk of `mark_round`: promotions only. -/
theorem markWalk_spec : ∀ (fuel : Nat) (h : Heap) (current e : Nat), Hinv h →
    Hinv (Heap.markWalk fuel h current e) ∧ gcFrame h (Heap.markWalk fuel h current e) ∧
    (Heap.markWalk fuel h current e).condemnedCount ≤ h.condemnedCount ∧
    ((Heap.markWalk fuel h current e).check_start.isSome = true →
      h.check_start.isSome = true ∨
      (Heap.markWalk fuel h current e).condemnedCount < h.condemnedCount) := by
  intro fuel
  induction fuel with
  | zero =>
    intro h current e hinv
    rw [Heap.markWalk]
    exact ⟨hinv, gcFrame_refl h, le_refl _, fun hs => Or.inl hs⟩
  | succ fuel ih =>
    intro h current e hinv
    rw [Heap.markWalk]
    by_cases hce : current > e
    · rw [if_pos hce]
      exact ⟨hinv, gcFrame_refl h, le_refl _, fun hs => Or.inl hs⟩
    · rw [if_neg hce]
      dsimp only
      by_cases hcol : (h.get_range current).color = Color.Check
      · rw [if_pos hcol]
        obtain ⟨sci, scf, scc, scs⟩ := scanWords_spec
          (h.address_of (h.get_range current).end_ - h.address_of (h.get_range current).start)
          h (h.address_of (h.get_range current).start)
          (h.address_of (h.get_range current).end_) hinv
        set h2 := Heap.scanWords
          (h.address_of (h.get_range current).end_ - h.address_of (h.get_range current).start)
          h (h.address_of (h.get_range current).start)
          (h.address_of (h.get_range current).end_) with hh2
        obtain ⟨h2wf, h2live, h2geom, h2env⟩ := sci
        have hrp_inv : Hinv ({ h2 with
            color_map := h2.color_map.set (h2.block_of current) h2.current_color } : Heap) :=
          ⟨set_mapWf _ _ _ h2wf, h2live, h2geom, h2env⟩
        have hrp_cnt := condemnedCount_repaint h2 (h2.block_of current) h2wf h2live
        have hrp_frame : gcFrame h2 ({ h2 with
            color_map := h2.color_map.set (h2.block_of current) h2.current_color } : Heap) :=
          ⟨rfl, rfl, rfl, rfl, rfl⟩
        by_cases hlt : current < h.address_of (h.get_range current).end_
        · rw [if_pos hlt]
          obtain ⟨wi, wf2, wc, ws⟩ := ih _ (h.address_of (h.get_range current).end_) e hrp_inv
          refine ⟨wi, gcFrame_trans _ _ _ (gcFrame_trans _ _ _ scf hrp_frame) wf2,
            le_trans wc (le_trans hrp_cnt scc), ?_⟩
          intro hs
          rcases ws hs with h1 | h1
          · rcases scs h1 with h2' | h2'
            · exact Or.inl h2'
            · exact Or.inr (Nat.lt_of_le_of_lt (le_trans wc hrp_cnt) h2')
          · exact Or.inr (Nat.lt_of_lt_of_le h1 (le_trans hrp_cnt scc))
        · rw [if_neg hlt]
          refine ⟨hrp_inv, gcFrame_trans _ _ _ scf hrp_frame, le_trans hrp_cnt scc, ?_⟩
          intro hs
          rcases scs hs with h1 | h1
          · exact Or.inl h1
          · exact Or.inr (Nat.lt_of_le_of_lt hrp_cnt h1)
      · rw [if_neg hcol]
        by_cases hlt : current < h.address_of (h.get_range current).end_
        · rw [if_pos hlt]
          exact ih _ (h.address_of (h.get_range current).end_) e hinv
        · rw [if_neg hlt]
          exact ⟨hinv, gcFrame_refl h, le_refl _, fun hs => Or.inl hs⟩

/-- A `mark_round` that reports more work strictly shrinks the condemned set
and stays in `MARKING` with the invariant intact. -/
theorem mark_round_false_dec (h h' : Heap) (hinv : Hinv h)
    (hr : h.mark_round = some (false, h')) :
    Hinv h' ∧ h'.phase = Phase.MARKING ∧
    h'.condemnedCount < h.condemnedCount := by
  obtain ⟨hwf, hlive, hgeom, henv⟩ := hinv
  unfold Heap.mark_round at hr
  by_cases hph : h.phase ≠ Phase.MARKING
  · rw [if_pos hph] at hr
    exact absurd hr (by simp)
  · rw [if_neg hph] at hr
    rw [not_not] at hph
    cases hcs : h.check_start with
    | none =>
      rw [hcs] at hr
      exact absurd hr (by simp)
    | some s =>
      cases hce : h.check_end with
      | none =>
        rw [hcs, hce] at hr
        exact absurd hr (by simp)
      | some e =>
        rw [hcs, hce] at hr
        dsimp only at hr
        set h1 : Heap := { h with check_start := none, check_end := none } with hh1
        have h1inv : Hinv h1 := ⟨hwf, hlive, hgeom, rfl⟩
        obtain ⟨wi, wf2, wc, ws⟩ := markWalk_spec (e + BLOCK_SIZE_BYTES) h1 s e h1inv
        cases hw : (Heap.markWalk (e + BLOCK_SIZE_BYTES) h1 s e).check_start with
        | none =>
          rw [hw] at hr
          exact absurd hr (by simp)
        | some q =>
          rw [hw] at hr
          simp only [Option.some.injEq, Prod.mk.injEq] at hr
          obtain ⟨-, hr2⟩ := hr
          subst hr2
          refine ⟨wi, ?_, ?_⟩
          · have := wf2.2.2.2.2
            rw [this]
            exact hph
          · have hsome : (Heap.markWalk (e + BLOCK_SIZE_BYTES) h1 s e).check_start.isSome
                = true := by rw [hw]; rfl
            rcases ws hsome with h1' | h1'
            · exact absurd h1' (by simp [hh1])
            · exact h1'

/-- In phase `MARKING` with a well-formed envelope, `mark_round` never
fails its phase assertion. -/
theorem mark_round_some (h : Heap) (hph : h.phase = Phase.MARKING)
    (henv : h.check_start.isSome = h.check_end.isSome) : (h.mark_round).isSome = true := by
  unfold Heap.mark_round
  rw [if_neg (by simp [hph])]
  cases hcs : h.check_start with
  | none => rfl
  | some s =>
    cases hce : h.check_end with
    | none =>
      rw [hcs, hce] at henv
      exact absurd henv (by simp)
    | some e =>
      dsimp only
      cases (Heap.markWalk (e + BLOCK_SIZE_BYTES)
          { h with check_start := none, check_end := none } s e).check_start <;> rfl

/-- Enough fuel for the mark loop: one round more than the number of
condemned blocks. -/
theorem markLoop_isSome : ∀ (k : Nat) (h : Heap), h.condemnedCount ≤ k →
    h.phase = Phase.MARKING → Hinv h → (Heap.markLoop (k + 1) h).isSome = true := by
  intro k
  induction k with
  | zero =>
    intro h hc hph hinv
    rw [Heap.markLoop]
    cases hr : h.mark_round with
    | none =>
      have := mark_round_some h hph hinv.2.2.2
      rw [hr] at this
      exact absurd this (by simp)
    | some pr =>
      obtain ⟨b, h'⟩ := pr
      cases b with
      | true => rfl
      | false =>
        obtain ⟨-, -, hlt⟩ := mark_round_false_dec h h' hinv hr
        omega
  | succ k ih =>
    intro h hc hph hinv
    rw [Heap.markLoop]
    cases hr : h.mark_round with
    | none =>
      have := mark_round_some h hph hinv.2.2.2
      rw [hr] at this
      exact absurd this (by simp)
    | some pr =>
      obtain ⟨b, h'⟩ := pr
      cases b with
      | true => rfl
      | false =>
        obtain ⟨hinv', hph', hlt⟩ := mark_round_false_dec h h' hinv hr
        exact ih h' (by omega) hph' hinv'

/-- `mark_start` from `QUIET` succeeds and hands over a `MARKING` heap with
the invariant intact. -/
theorem mark_start_spec (h : Heap) (roots : List Nat)
    (hq : h.phase = Phase.QUIET) (hinv : Hinv h) :
    ∃ h1, h.mark_start roots = some h1 ∧ Hinv h1 ∧ h1.phase = Phase.MARKING := by
  obtain ⟨hwf, hlive, hgeom, -⟩ := hinv
  unfold Heap.mark_start
  rw [if_neg (by simp [hq])]
  have hfold : ∀ (rs : List Nat) (g : Heap), Hinv g →
      Hinv (rs.foldl Heap.check g) ∧ gcFrame g (rs.foldl Heap.check g) := by
    intro rs
    induction rs with
    | nil => exact fun g hg => ⟨hg, gcFrame_refl g⟩
    | cons r rt ih =>
      intro g hg
      obtain ⟨hci, hcf, -, -⟩ := check_spec g r hg
      obtain ⟨hfi, hff⟩ := ih (g.check r) hci
      exact ⟨hfi, gcFrame_trans _ _ _ hcf hff⟩
  have hlive' : h.current_color.opposite = Color.Blue ∨
      h.current_color.opposite = Color.Green := by
    rcases hlive with hl | hl <;> rw [hl] <;> [right; left] <;> rfl
  obtain ⟨⟨fwf, flive, fgeom, fenv⟩, -⟩ := hfold roots
    { h with check_start := none, check_end := none,
             current_color := h.current_color.opposite }
    ⟨hwf, hlive', hgeom, rfl⟩
  exact ⟨_, rfl, ⟨fwf, flive, fgeom, fenv⟩, rfl⟩

/-- C7: from a quiet heap satisfying the state invariant, `mark(roots)`
terminates — `condemnedCount + 1` rounds of fuel always suffice, because a
round that returns `false` has promoted at least one condemned block to
`Check` (and rounds never condemn blocks), so only finitely many rounds can
return `false`. -/
theorem c7_mark_terminates (h : Heap) (roots : List Nat)
    (hq : h.phase = Phase.QUIET) (hinv : Hinv h) :
    (h.mark roots).isSome = true ∧
    (∀ g g' : Heap, Hinv g → g.mark_round = some (false, g') →
      g'.condemnedCount < g.condemnedCount) := by
  constructor
  · unfold Heap.mark
    obtain ⟨h1, hs, hinv1, hph1⟩ := mark_start_spec h roots hq hinv
    rw [hs]
    show (Heap.markLoop (h1.condemnedCount + 1) h1).isSome = true
    exact markLoop_isSome h1.condemnedCount h1 (le_refl _) hph1 hinv1
  · intro g g' hg hr
    exact (mark_round_false_dec g g' hg hr).2.2

/-- Witness for C7: the two-object demonstration heap.  Its full `mark` from
`QUIET` completes, and the paused `MARKING` state's first round returns
`false` (graying the second object) while strictly shrinking the condemned
count. -/
theorem c7_mark_terminates_witness :
    (preMarkDemo.mark [1024]).isSome = true ∧
    ((markDemo.mark_round.getD (true, markDemo)).2.condemnedCount <
      markDemo.condemnedCount) := by
  have h := c7_mark_terminates preMarkDemo [1024] (by decide)
    ⟨by decide, by decide, by decide, by decide⟩
  refine ⟨h.1, ?_⟩
  refine h.2 markDemo (markDemo.mark_round.getD (true, markDemo)).2
    ⟨by decide, by decide, by decide, by decide⟩ ?_
  rfl

/-! ## The pool geometry is fixed after construction (C10) -/

theorem poolFrame_refl (h : Heap) : poolFrame h h := ⟨rfl, rfl, rfl⟩

theorem poolFrame_trans (h h' h'' : Heap) (a : poolFrame h h') (b : poolFrame h' h'') :
    poolFrame h h'' := ⟨b.1.trans a.1, b.2.1.trans a.2.1, b.2.2.trans a.2.2⟩

theorem poolTriple_of_frame (h h' : Heap) (hf : poolFrame h h') :
    poolTriple h' = poolTriple h := by
  unfold poolTriple Heap.get_stats
  rw [hf.1, hf.2.1, hf.2.2]

theorem map_poolTriple_of_frame (o : Option Heap) (h : Heap)
    (hf : ∀ g, o = some g → poolFrame h g) :
    o.map poolTriple = o.map fun _ => poolTriple h := by
  cases o with
  | none => rfl
  | some g =>
    rw [Option.map_some', Option.map_some', poolTriple_of_frame h g (hf g rfl)]

theorem check_frame_pure (h : Heap) (p : Nat) : poolFrame h (h.check p) := by
  unfold Heap.check
  by_cases hb : h.is_block p
  · rw [if_pos hb]
    by_cases hc : h.color_map.get (h.block_of p) = h.current_color.opposite
    · rw [if_pos hc]
      exact ⟨rfl, rfl, rfl⟩
    · rw [if_neg hc]
      exact poolFrame_refl h
  · rw [if_neg hb]
    exact poolFrame_refl h

theorem foldl_check_frame (roots : List Nat) : ∀ h : Heap,
    poolFrame h (roots.foldl Heap.check h) := by
  induction roots with
  | nil => exact fun h => poolFrame_refl h
  | cons r rt ih =>
    intro h
    exact poolFrame_trans _ _ _ (check_frame_pure h r) (ih (h.check r))

theorem scanWords_frame : ∀ (fuel : Nat) (h : Heap) (p e : Nat),
    poolFrame h (Heap.scanWords fuel h p e) := by
  intro fuel
  induction fuel with
  | zero =>
    intro h p e
    rw [Heap.scanWords]
    exact poolFrame_refl h
  | succ fuel ih =>
    intro h p e
    rw [Heap.scanWords]
    by_cases hpe : p < e
    · rw [if_pos hpe]
      exact poolFrame_trans _ _ _ (check_frame_pure h (h.mem p)) (ih _ (p + WORD_SIZE) e)
    · rw [if_neg hpe]
      exact poolFrame_refl h

theorem markWalk_frame : ∀ (fuel : Nat) (h : Heap) (current e : Nat),
    poolFrame h (Heap.markWalk fuel h current e) := by
  intro fuel
  induction fuel with
  | zero =>
    intro h current e
    rw [Heap.markWalk]
    exact poolFrame_refl h
  | succ fuel ih =>
    intro h current e
    rw [Heap.markWalk]
    by_cases hce : current > e
    · rw [if_pos hce]
      exact poolFrame_refl h
    · rw [if_neg hce]
      dsimp only
      by_cases hcol : (h.get_range current).color = Color.Check
      · rw [if_pos hcol]
        set h2 := Heap.scanWords
          (h.address_of (h.get_range current).end_ - h.address_of (h.get_range current).start)
          h (h.address_of (h.get_range current).start)
          (h.address_of (h.get_range current).end_) with hh2
        have hs : poolFrame h h2 := hh2 ▸ scanWords_frame
          (h.address_of (h.get_range current).end_ - h.address_of (h.get_range current).start)
          h (h.address_of (h.get_range current).start) (h.address_of (h.get_range current).end_)
        have hrp : poolFrame h ({ h2 with
            color_map := h2.color_map.set (h2.block_of current) h2.current_color } : Heap) :=
          ⟨hs.1, hs.2.1, hs.2.2⟩
        by_cases hlt : current < h.address_of (h.get_range current).end_
        · rw [if_pos hlt]
          exact poolFrame_trans _ _ _ hrp (ih _ _ e)
        · rw [if_neg hlt]
          exact hrp
      · rw [if_neg hcol]
        by_cases hlt : current < h.address_of (h.get_range current).end_
        · rw [if_pos hlt]
          exact ih _ _ e
        · rw [if_neg hlt]
          exact poolFrame_refl h

theorem mark_round_frame (h : Heap) (b : Bool) (g : Heap)
    (hr : h.mark_round = some (b, g)) : poolFrame h g := by
  unfold Heap.mark_round at hr
  by_cases hph : h.phase ≠ Phase.MARKING
  · rw [if_pos hph] at hr
    exact absurd hr (by simp)
  · rw [if_neg hph] at hr
    cases hcs : h.check_start with
    | none =>
      rw [hcs] at hr
      simp only [Option.some.injEq, Prod.mk.injEq] at hr
      rw [← hr.2]
      exact ⟨rfl, rfl, rfl⟩
    | some s =>
      cases hce : h.check_end with
      | none =>
        rw [hcs, hce] at hr
        exact absurd hr (by simp)
      | some e =>
        rw [hcs, hce] at hr
        dsimp only at hr
        have hw := markWalk_frame (e + BLOCK_SIZE_BYTES)
          { h with check_start := none, check_end := none } s e
        cases hcs2 : (Heap.markWalk (e + BLOCK_SIZE_BYTES)
            { h with check_start := none, check_end := none } s e).check_start with
        | none =>
          rw [hcs2] at hr
          simp only [Option.some.injEq, Prod.mk.injEq] at hr
          rw [← hr.2]
          exact ⟨hw.1, hw.2.1, hw.2.2⟩
        | some q =>
          rw [hcs2] at hr
          simp only [Option.some.injEq, Prod.mk.injEq] at hr
          rw [← hr.2]
          exact ⟨hw.1, hw.2.1, hw.2.2⟩

theorem markLoop_frame : ∀ (fuel : Nat) (h g : Heap),
    Heap.markLoop fuel h = some g → poolFrame h g := by
  intro fuel
  induction fuel with
  | zero =>
    intro h g hr
    rw [Heap.markLoop] at hr
    exact absurd hr (by simp)
  | succ fuel ih =>
    intro h g hr
    rw [Heap.markLoop] at hr
    cases hround : h.mark_round with
    | none => rw [hround] at hr; exact absurd hr (by simp)
    | some pr =>
      obtain ⟨b, h'⟩ := pr
      rw [hround] at hr
      cases b with
      | true =>
        simp only [Option.some.injEq] at hr
        rw [← hr]
        exact mark_round_frame h true h' hround
      | false =>
        exact poolFrame_trans _ _ _ (mark_round_frame h false h' hround) (ih h' g hr)

theorem mark_start_frame (h g : Heap) (roots : List Nat)
    (hr : h.mark_start roots = some g) : poolFrame h g := by
  unfold Heap.mark_start at hr
  by_cases hph : h.phase ≠ Phase.QUIET
  · rw [if_pos hph] at hr
    exact absurd hr (by simp)
  · rw [if_neg hph] at hr
    simp only [Option.some.injEq] at hr
    rw [← hr]
    have := foldl_check_frame roots
      { h with check_start := none, check_end := none,
               current_color := h.current_color.opposite }
    exact ⟨this.1, this.2.1, this.2.2⟩

theorem mark_frame (h g : Heap) (roots : List Nat)
    (hr : h.mark roots = some g) : poolFrame h g := by
  unfold Heap.mark at hr
  cases hs : h.mark_start roots with
  | none => rw [hs] at hr; exact absurd hr (by simp)
  | some h1 =>
    rw [hs] at hr
    exact poolFrame_trans _ _ _ (mark_start_frame h h1 roots hs)
      (markLoop_frame _ h1 g hr)

theorem sweep_frame (h g : Heap) (hr : h.sweep = some g) : poolFrame h g := by
  unfold Heap.sweep at hr
  by_cases hph : h.phase ≠ Phase.MARKED
  · rw [if_pos hph] at hr
    exact absurd hr (by simp)
  · rw [if_neg hph] at hr
    cases hw : Heap.sweepWalk h.current_color.opposite
        (2 * h.end_ + h.free_list.length + 2) h h.start [] h.free_list with
    | none => rw [hw] at hr; exact absurd hr (by simp)
    | some fl =>
      rw [hw, Option.map_some'] at hr
      simp only [Option.some.injEq] at hr
      rw [← hr]
      exact ⟨rfl, rfl, rfl⟩

theorem gc_frame (h g : Heap) (roots : List Nat)
    (hr : h.gc roots = some g) : poolFrame h g := by
  unfold Heap.gc at hr
  cases hs : h.mark roots with
  | none => rw [hs] at hr; exact absurd hr (by simp)
  | some h1 =>
    rw [hs] at hr
    exact poolFrame_trans _ _ _ (mark_frame h h1 roots hs) (sweep_frame h1 g hr)

theorem allocate_pool_frame (h : Heap) (amount : Nat) :
    poolFrame h (h.allocate amount).2 := by
  unfold Heap.allocate
  cases hrec : flAllocate (ceil_to amount BLOCK_SIZE_BYTES) h.free_list with
  | none => exact poolFrame_refl h
  | some p =>
    obtain ⟨m0, fl⟩ := p
    by_cases hph : h.phase = Phase.MARKING <;>
      simp only [hph, if_true, if_false, ite_true, ite_false, Heap.add_to_check_span] <;>
      exact ⟨rfl, rfl, rfl⟩

/-- C10: after construction, every public heap operation leaves
`get_stats().total_bytes` (always the pool's block count times
`BLOCK_SIZE_BYTES`) and the pool's `start`/`end` addresses unchanged; only
`free_bytes` varies. -/
theorem c10_stats_pool_fixed (h : Heap) (amount size count p v : Nat) (m : Memory)
    (roots : List Nat) :
    h.get_stats.total_bytes = h.blocks * BLOCK_SIZE_BYTES ∧
    poolTriple ((h.allocate amount).2) = poolTriple h ∧
    poolTriple ((h.allocate_object size).2) = poolTriple h ∧
    poolTriple ((h.allocate_array size count).2) = poolTriple h ∧
    poolTriple (h.retire m) = poolTriple h ∧
    poolTriple (h.retire_object p) = poolTriple h ∧
    poolTriple (h.writeWord p v) = poolTriple h ∧
    poolTriple (h.mark_check p) = poolTriple h ∧
    ((h.mark_start roots).map poolTriple = (h.mark_start roots).map fun _ => poolTriple h) ∧
    ((h.mark_round).map (fun x => poolTriple x.2) =
      (h.mark_round).map fun _ => poolTriple h) ∧
    ((h.sweep).map poolTriple = (h.sweep).map fun _ => poolTriple h) ∧
    ((h.mark roots).map poolTriple = (h.mark roots).map fun _ => poolTriple h) ∧
    ((h.gc roots).map poolTriple = (h.gc roots).map fun _ => poolTriple h) := by
  refine ⟨rfl, poolTriple_of_frame _ _ (allocate_pool_frame h amount),
    poolTriple_of_frame _ _ (allocate_pool_frame h size),
    poolTriple_of_frame _ _ (allocate_pool_frame h (size * count)),
    rfl, rfl, rfl, ?_, ?_, ?_, ?_, ?_, ?_⟩
  · unfold Heap.mark_check
    by_cases hb : h.is_block p
    · rw [if_pos hb]
      rfl
    · rw [if_neg hb]
  · exact map_poolTriple_of_frame _ _ fun g hg => mark_start_frame h g roots hg
  · cases hround : h.mark_round with
    | none => rfl
    | some pr =>
      obtain ⟨b, g⟩ := pr
      rw [Option.map_some', Option.map_some',
        poolTriple_of_frame h g (mark_round_frame h b g hround)]
  · exact map_poolTriple_of_frame _ _ fun g hg => sweep_frame h g hg
  · exact map_poolTriple_of_frame _ _ fun g hg => mark_frame h g roots hg
  · exact map_poolTriple_of_frame _ _ fun g hg => gc_frame h g roots hg

/-- C1: the claim says that after `gc(roots)` every object that was not
reachable is Check-painted and part of the free list.  In the C1 scenario
(three allocations of 16, 32 and 16 bytes, then `gc([1040])`) the two dead
spans are indeed returned to the free list, but `sweep` never repaints the
map: the dead head block at index 0 still carries `Blue` — the old
allocation color, not `Check` — while the surviving object at block 1 holds
the current color `Green`.  So the free-list half of the claim holds and the
painting half fails on this input. -/
theorem c1_gc_dead_objects_not_check_painted :
    gcStale2.map Heap.free_list = some [⟨1024, 16⟩, ⟨1072, 192⟩] ∧
    gcStale2.map (fun g => (g.color_map.get 0, g.color_map.get 1, g.current_color)) =
      some (Color.Blue, Color.Green, Color.Green) ∧
    Color.Blue ≠ Color.Check :=
  ⟨rfl, rfl, by decide⟩

/-- C2: invariant I3 says every free region is `Check` across all of its
blocks after every public call.  In the C2 scenario (one 16-byte allocation,
then `gc([])`) the whole pool returns to a single free node `[1024, 240]`,
but the swept block at index 0 still carries `Blue`: `sweep` inserts the
condemned span into the free list without calling `free_range`, so the free
region is not all-`Check`. -/
theorem c2_free_region_not_all_check :
    gcStale1.map Heap.free_list = some [⟨1024, 240⟩] ∧
    gcStale1.map (fun g => g.color_map.get 0) = some Color.Blue ∧
    Color.Blue ≠ Color.Check :=
  ⟨rfl, rfl, by decide⟩

/-- C8 counterexample: the claim says the driver reserves 16 bytes for the
color map of a 256-byte region; `Heap::new` actually reserves
`div_ceil(256, 1 + 4 * 16) = 4` bytes, because one packed map byte covers
four 16-byte blocks. -/
theorem c8_counterexample :
    (Heap.new 1024 256 zmem).color_map.bits.length = 4 ∧
    (Heap.new 1024 256 zmem).color_map.bits.length ≠ 16 :=
  ⟨rfl, by decide⟩

/-- C8 (amended): a heap built from a 256-byte backing region reserves 4
bytes for the packed color map and leaves a 240-byte pool of 15 blocks
ending at `start + 240`; immediately after construction the span dump reads
`FREE[240]` and `get_stats` reports `total_bytes = 240` and
`free_bytes = 240`. -/
theorem c8_fresh_heap_layout :
    (Heap.new 1024 256 zmem).color_map.bits.length = 4 ∧
    (Heap.new 1024 256 zmem).blocks = 15 ∧
    (Heap.new 1024 256 zmem).end_ = 1024 + 240 ∧
    (Heap.new 1024 256 zmem).dump = some "FREE[240]" ∧
    (Heap.new 1024 256 zmem).get_stats.total_bytes = 240 ∧
    (Heap.new 1024 256 zmem).get_stats.free_bytes = 240 :=
  ⟨rfl, rfl, rfl, rfl, rfl, rfl⟩

end Mwgc
